import Mathlib

/-!
# crosbymichael/pulls: ownership resolution

A shallow embedding of the maintainer-resolution code of `src/github.go` and
`src/review.go`.  Go strings are modelled as lists of characters (`Str`); the
ordering on `List Char` is the lexicographic ordering by code point, which is
the ordering Go uses on valid UTF-8 strings.
-/

namespace Pulls

/-- Go strings, as the sequence of their code points. -/
abbrev Str := List Char

/-! ## Library functions used by the source -/

/-- Go `strings.TrimLeft(s, cutset)` with the cutset given as a predicate. -/
def trimLeft (p : Char → Bool) : Str → Str
  | [] => []
  | c :: cs => if p c then trimLeft p cs else c :: cs

/-- Go `strings.Trim(s, cutset)`: drop leading and trailing characters of the cutset. -/
def trim (p : Char → Bool) (s : Str) : Str :=
  (trimLeft p (trimLeft p s).reverse).reverse

/-- The cutset `" \t"` of `parseMaintainer`. -/
def isBlank (c : Char) : Bool := c == ' ' || c == '\t'

/-- Go `strings.Split(s, "/")`. -/
def splitSlash (s : Str) : List Str := s.splitOn '/'

/-- One step of the segment stack of `path.Clean`: empty and `.` segments are
dropped, `..` removes the previous segment (at the root it is dropped, at the
start of a relative path it is kept). -/
def cleanStep (rooted : Bool) (stack : List Str) (seg : Str) : List Str :=
  if seg = [] ∨ seg = ['.'] then stack
  else if seg = ['.', '.'] then
    match stack.getLast? with
    | none => if rooted then stack else stack ++ [seg]
    | some top => if top = ['.', '.'] then stack ++ [seg] else stack.dropLast
  else stack ++ [seg]

/-- Go `path.Clean`. -/
def pathClean (s : Str) : Str :=
  if s = [] then ['.'] else
  let rooted := s.head? = some '/'
  let segs := (splitSlash s).foldl (cleanStep rooted) []
  let body := List.intercalate ['/'] segs
  if rooted then '/' :: body else if body = [] then ['.'] else body

/-- Go `path.Join` of two elements: empty elements are ignored, the rest is
joined with a slash and cleaned; the join of nothing is the empty string. -/
def pathJoin (a b : Str) : Str :=
  if a = [] then (if b = [] then [] else pathClean b)
  else if b = [] then pathClean a
  else pathClean (a ++ '/' :: b)

/-- Drop the trailing slashes of a path (helper of `path.Base`). -/
def dropTrailingSlashes (s : Str) : Str := (trimLeft (· == '/') s.reverse).reverse

/-- Go `path.Base`: the last element of the path. -/
def pathBase (s : Str) : Str :=
  if s = [] then ['.'] else
  let t := dropTrailingSlashes s
  let b := ((splitSlash t).getLast?).getD []
  if b = [] then ['/'] else b

/-- Go `path.Dir` (and `filepath.Dir` on a slash-separated system): everything
up to the last slash, cleaned. -/
def pathDir (s : Str) : Str :=
  pathClean (List.intercalate ['/'] (splitSlash s).dropLast ++
    (if (splitSlash s).length > 1 then ['/'] else []))

/-! ## The regular expression of `parseMaintainer` -/

/-- The fragment of Go regular expressions that `parseMaintainer` uses. -/
inductive Re where
  | eps : Re
  | cls (p : Char → Bool) : Re
  | star (p : Char → Bool) : Re
  | seq (a b : Re) : Re
  | alt (a b : Re) : Re
  | grp (i : Nat) (r : Re) : Re

/-- Submatches, indexed by group number. -/
abbrev Caps := List Str

/-- Greedy repetition of a character class: the longest run is tried first, then
shorter ones. -/
def starGreedy {α : Type} (p : Char → Bool) (k : Str → Option α) : Str → Option α
  | [] => k []
  | c :: cs =>
    if p c then
      match starGreedy p k cs with
      | some r => some r
      | none => k (c :: cs)
    else k (c :: cs)

/-- Backtracking matcher with leftmost-first preference (the preference order of
Go's `regexp`), in continuation-passing style. -/
def Re.run : Re → Str → Caps → (Str → Caps → Option Caps) → Option Caps
  | .eps, s, c, k => k s c
  | .cls p, s, c, k =>
    match s with
    | [] => none
    | x :: xs => if p x then k xs c else none
  | .star p, s, c, k => starGreedy p (fun s' => k s' c) s
  | .seq a b, s, c, k => a.run s c (fun s' c' => b.run s' c' k)
  | .alt a b, s, c, k =>
    match a.run s c k with
    | some r => some r
    | none => b.run s c k
  | .grp i r, s, c, k =>
    r.run s c (fun s' c' => k s' (c'.set i (s.take (s.length - s'.length))))

/-- A literal character. -/
def Re.lit (ch : Char) : Re := .cls (· == ch)

def isLetter (c : Char) : Bool := ('a' ≤ c ∧ c ≤ 'z') ∨ ('A' ≤ c ∧ c ≤ 'Z')

/-- The group `(#|)`. -/
def reMarker : Re := .grp 1 (.alt (.lit '#') .eps)

/-- The group `((?P<target>[^: ]*) *:|)`. -/
def reTarget : Re :=
  .grp 2 (.alt (.seq (.grp 3 (.star (fun c => !(c == ':' || c == ' '))))
    (.seq (.star (· == ' ')) (.lit ':'))) .eps)

/-- The group `(?P<fullname>[a-zA-Z][^<]*)`. -/
def reFullname : Re := .grp 4 (.seq (.cls isLetter) (.star (· != '<')))

/-- The group `(?P<email>[^>]*)`. -/
def reEmail : Re := .grp 5 (.star (· != '>'))

/-- The group `(\(@(?P<username>[^\)]+)\)|)`. -/
def reUsername : Re :=
  .grp 6 (.alt (.seq (.lit '(') (.seq (.lit '@')
    (.seq (.grp 7 (.seq (.cls (· != ')')) (.star (· != ')')))) (.lit ')')))) .eps)

/-- The part of the pattern from `<` on: `<(?P<email>[^>]*)> *(\(@(?P<username>[^\)]+)\)|).*`. -/
def reTail : Re :=
  .seq (.lit '<') <| .seq reEmail <| .seq (.lit '>') <| .seq (.star (· == ' ')) <|
  .seq reUsername (.star (· != '\n'))

/-- The pattern
`^[ \t]*(#|)((?P<target>[^: ]*) *:|) *(?P<fullname>[a-zA-Z][^<]*) *<(?P<email>[^>]*)> *(\(@(?P<username>[^\)]+)\)|).*$`
(the anchors are applied by `findStringSubmatch`; `.` does not match a newline,
a negated class does). -/
def maintainerRe : Re :=
  .seq (.star isBlank) <| .seq reMarker <| .seq reTarget <| .seq (.star (· == ' ')) <|
  .seq reFullname <| .seq (.star (· == ' ')) reTail

/-- Go `FindStringSubmatch` for a pattern anchored at both ends: `none` is the
nil slice returned when the line does not match. Group 0 is the whole line. -/
def findStringSubmatch (re : Re) (line : Str) : Option Caps :=
  re.run line (line :: List.replicate 7 [])
    (fun s c => if s = [] then some c else none)

/-- The record type `Maintainer` of `src/review.go`. -/
structure Maintainer where
  Username : Str
  FullName : Str
  Email : Str
  Target : Str
  Active : Bool
  Lead : Bool
  Raw : Str
deriving DecidableEq, Repr

/-- The function `parseMaintainer` of `src/review.go`.  The source indexes the submatch slice
without checking it, so a line the pattern rejects makes the call panic
(index out of range on a nil slice): that outcome is `none`. -/
def parseMaintainer (line : Str) : Option Maintainer :=
  match findStringSubmatch maintainerRe line with
  | none => none
  | some m =>
    some { Active := m.getD 1 [] == []
           Target := pathBase (pathClean (m.getD 3 []))
           Username := trim isBlank (m.getD 7 [])
           Email := trim isBlank (m.getD 5 [])
           FullName := trim isBlank (m.getD 4 [])
           Lead := false
           Raw := line }

/-! ## Sorting and searching (`sort.Strings`, `sort.SearchStrings`) -/

/-- Go `sort.Strings`: the list in ascending order. -/
def sortStrings (l : List Str) : List Str := l.insertionSort (· ≤ ·)

/-- The loop of Go `sort.Search(n, f)`: `fuel` bounds the number of halvings. -/
def searchLoop (f : Nat → Bool) : Nat → Nat → Nat → Nat
  | 0, i, _ => i
  | fuel + 1, i, j =>
    if i < j then
      let h := (i + j) / 2
      if !f h then searchLoop f fuel (h + 1) j else searchLoop f fuel i h
    else i

/-- Go `sort.SearchStrings(a, x)`: binary search for the first index whose
element is `≥ x`; the loop halves `j - i`, so `a.length` iterations suffice. -/
def searchStrings (a : List Str) (x : Str) : Nat :=
  searchLoop (fun h => decide (x ≤ a.getD h [])) a.length 0 a.length

/-- The test `i := sort.SearchStrings(a, x); i < len(a) && a[i] == x`. -/
def foundSorted (a : List Str) (x : Str) : Bool :=
  let i := searchStrings a x
  decide (i < a.length) && decide (a.getD i [] = x)

/-! ## `strings.EqualFold` -/

/-- Representative of the simple case-folding orbit of a character, for the
orbits that contain an ASCII letter (`K` and `S` have a third member). -/
def foldChar (c : Char) : Char :=
  if 'A' ≤ c ∧ c ≤ 'Z' then Char.ofNat (c.toNat + 32)
  else if c = Char.ofNat 0x212A then 'k'
  else if c = Char.ofNat 0x17F then 's'
  else c

/-- Go `strings.EqualFold`, exact whenever one argument is ASCII (the source
always passes the constant `MAINTAINERS`). -/
def equalFold (a b : Str) : Bool := a.map foldChar == b.map foldChar

def MaintainerManagersFileName : Str := "MAINTAINERS".toList

/-! ## Results of fallible calls -/

/-- Outcome of a call: a value, a returned `error`, or a run-time panic. -/
inductive Outcome (α : Type) where
  | ok (a : α) : Outcome α
  | error (msg : Str) : Outcome α
  | crash : Outcome α
deriving DecidableEq, Repr

/-! ## `getMaintainerManagersIds` -/

/-- The scanner loop of `getMaintainerManagersIds` over the remaining lines,
`acc` being `maintainersFileMap` so far. -/
def idsLoop : List Str → List Str → Outcome (List Str)
  | [], acc => .ok acc
  | line :: rest, acc =>
    match parseMaintainer line with
    | none => .crash
    | some m =>
      if m.Username = [] ∧ m.Email = [] then
        .error ("Incorrect maintainer format: ".toList ++ m.Raw)
      else
        let acc1 := if m.Email ≠ [] then acc ++ [m.Email] else acc
        let acc2 := if m.Username ≠ [] then acc1 ++ [m.Username] else acc1
        idsLoop rest acc2

/-- The function `getMaintainerManagersIds` of `src/github.go`, on the lines the scanner
yields for the file (none when the file cannot be opened or read). -/
def getMaintainerManagersIds (lines : List Str) : Outcome (List Str) :=
  match idsLoop lines [] with
  | .ok ids => .ok (sortStrings ids)
  | .error e => .error e
  | .crash => .crash

/-! ## The directory tree and `createMaintainerManagerDirectoriesMap` -/

/-- A directory entry as `ioutil.ReadDir` reports it: a file with the lines a
scanner reads from it, or a directory that can or cannot be listed. -/
inductive Entry where
  | file (name : Str) (lines : List Str) : Entry
  | dir (name : Str) (listable : Bool) (entries : List Entry) : Entry

def Entry.name : Entry → Str
  | .file n _ => n
  | .dir n _ _ => n

def Entry.isDir : Entry → Bool
  | .file _ _ => false
  | .dir _ _ _ => true

/-- The lines a scanner yields when the entry is opened as a file: reading a
directory fails at once, so it yields none. -/
def Entry.scanLines : Entry → List Str
  | .file _ ls => ls
  | .dir _ _ _ => []

/-- The first loop of `createMaintainerManagerDirectoriesMap`: looks for
declaration files; the state is `(foundMaintainerManagersFile,
iAmOneOfTheMaintainerManagers)`. -/
def scanNames (maintainerEmail userName : Str) :
    List Entry → Bool × Bool → Outcome (Bool × Bool)
  | [], st => .ok st
  | e :: es, (found, iAm) =>
    if equalFold e.name MaintainerManagersFileName then
      match getMaintainerManagersIds e.scanLines with
      | .error msg => .error msg
      | .crash => .crash
      | .ok ids =>
        if foundSorted ids maintainerEmail then
          scanNames maintainerEmail userName es (true, true)
        else if foundSorted ids userName then
          scanNames maintainerEmail userName es (true, true)
        else scanNames maintainerEmail userName es (true, iAm)
    else scanNames maintainerEmail userName es (found, iAm)

mutual
/-- The function `createMaintainerManagerDirectoriesMap` of `src/github.go` on the directory
`pth` denotes; the global `maintainerDirectoriesMap.paths` is threaded through
as `paths`.  Returns the function's result and the global afterwards. -/
def createMaintainerManagerDirectoriesMap (pth : Entry) (cpth maintainerEmail userName : Str)
    (belongsToOthers : Bool) (paths : List Str) : Outcome Unit × List Str :=
  match pth with
  | .file _ _ => (.error "not a directory".toList, paths)
  | .dir _ listable names =>
    if !listable then (.error "cannot list directory".toList, paths) else
    match scanNames maintainerEmail userName names (false, false) with
    | .error msg => (.error msg, paths)
    | .crash => (.crash, paths)
    | .ok (foundMaintainerManagersFile, iAmOneOfTheMaintainerManagers) =>
      if (!foundMaintainerManagersFile && !belongsToOthers) || iAmOneOfTheMaintainerManagers then
        let (crashed, paths2) := walkNames names cpth maintainerEmail userName false
          (paths ++ [if cpth = [] then ['.'] else cpth])
        (if crashed then .crash else .ok (), paths2)
      else if foundMaintainerManagersFile || belongsToOthers then
        let (crashed, paths2) := walkNames names cpth maintainerEmail userName true paths
        (if crashed then .crash else .ok (), paths2)
      else
        let (crashed, paths2) := walkNames names cpth maintainerEmail userName false paths
        (if crashed then .crash else .ok (), paths2)
/-- The second loop of `createMaintainerManagerDirectoriesMap`: the recursive
calls on the sub-directories that are not hidden.  The `error` a call returns
is discarded by the source; only a panic (first component `true`) stops the loop. -/
def walkNames (names : List Entry) (cpth maintainerEmail userName : Str)
    (belongsToOtherMaintainerManagers : Bool) (paths : List Str) : Bool × List Str :=
  match names with
  | [] => (false, paths)
  | e :: es =>
    if e.isDir then
      match e.name with
      | [] => (true, paths)
      | c :: _ =>
        if c ≠ '.' then
          match createMaintainerManagerDirectoriesMap e (pathJoin cpth e.name)
              maintainerEmail userName belongsToOtherMaintainerManagers paths with
          | (.crash, paths2) => (true, paths2)
          | (_, paths2) =>
            walkNames es cpth maintainerEmail userName belongsToOtherMaintainerManagers paths2
        else walkNames es cpth maintainerEmail userName belongsToOtherMaintainerManagers paths
    else walkNames es cpth maintainerEmail userName belongsToOtherMaintainerManagers paths
end

/-- The build of `NewMaintainerManager`: the call on the repository root with an
empty relative path, `belongsToOthers = false`, starting from the given value of
the global list. -/
def build (root : Entry) (maintainerEmail userName : Str) (paths : List Str) :
    Outcome Unit × List Str :=
  createMaintainerManagerDirectoriesMap root [] maintainerEmail userName false paths

/-! ## The change-set filter -/

/-- The inner loop of `GetPullRequestsThatICareAbout`: does some file of the
pull request lie in a directory that the binary search finds in `paths`? -/
def touchesMine (paths : List Str) : List Str → Bool
  | [] => false
  | fileName :: rest =>
    if foundSorted paths (pathDir fileName) then true else touchesMine paths rest

/-- The outer loop of `GetPullRequestsThatICareAbout` over the pull requests
(given by their numbers); `filteredPrs` is the accumulator. -/
def filterLoop (paths : List Str) (getPullRequestFiles : Nat → Outcome (List Str)) :
    List Nat → List Nat → Outcome (List Nat)
  | [], filteredPrs => .ok filteredPrs
  | p :: rest, filteredPrs =>
    match getPullRequestFiles p with
    | .error msg => .error msg
    | .crash => .crash
    | .ok prfs =>
      if touchesMine paths prfs then
        filterLoop paths getPullRequestFiles rest (filteredPrs ++ [p])
      else filterLoop paths getPullRequestFiles rest filteredPrs

/-- The method `MaintainerManager.GetPullRequestsThatICareAbout` of `src/github.go`; the
remote calls `GetPullRequests` and `GetPullRequestFiles` are given by their
results, a pull request by its number, `paths` is `m.directoriesMap.paths`. -/
def GetPullRequestsThatICareAbout (paths : List Str) (showAll : Bool)
    (getPullRequests : Outcome (List Nat))
    (getPullRequestFiles : Nat → Outcome (List Str)) : Outcome (List Nat) :=
  if showAll then getPullRequests else
  match getPullRequests with
  | .error msg => .error msg
  | .crash => .crash
  | .ok prs => filterLoop paths getPullRequestFiles prs []

/-! ## `ReviewPatch` -/

/-- A file entry of a parsed patch (`patch.File`): source and destination path. -/
structure PatchFile where
  Src : Str
  Dst : Str
deriving DecidableEq, Repr

/-- A Go map with string keys, as an association list with distinct keys. -/
abbrev GoMap (V : Type) := List (Str × V)

/-- The directory loop of `ReviewPatch`: starting from `.`, the segments before
the last are joined one by one. -/
def targetDirOf (target : Str) : Str :=
  (splitSlash target).dropLast.foldl
    (fun targetDir item => if targetDir = ['.'] then item else pathJoin targetDir item) ['.']

/-- The body of the inner loop of `ReviewPatch` for one path of a file entry. -/
def reviewTarget (maintainersDirMap : GoMap (List Maintainer))
    (reviewers : GoMap (List Maintainer)) (target : Str) : GoMap (List Maintainer) :=
  if target = [] then reviewers else
  let target := pathClean target
  if (reviewers.lookup target).isSome then reviewers else
  reviewers ++ [(target, (maintainersDirMap.lookup (targetDirOf target)).getD [])]

/-- The loops of `ReviewPatch` over the file entries. -/
def reviewFiles (maintainersDirMap : GoMap (List Maintainer)) :
    List PatchFile → GoMap (List Maintainer) → GoMap (List Maintainer)
  | [], reviewers => reviewers
  | f :: rest, reviewers =>
    reviewFiles maintainersDirMap rest
      ([f.Dst, f.Src].foldl (reviewTarget maintainersDirMap) reviewers)

/-- The function `ReviewPatch` of `src/review.go`; reading the input and `patch.Parse` are
given by their result, the list of file entries of the patch. -/
def ReviewPatch (parsed : Outcome (List PatchFile))
    (maintainersDirMap : GoMap (List Maintainer)) : Outcome (GoMap (List Maintainer)) :=
  match parsed with
  | .error msg => .error msg
  | .crash => .crash
  | .ok files => .ok (reviewFiles maintainersDirMap files [])

/-! ## Relational reading of the pattern language -/

/-- The relation `r.Matches s c s' c'`: the expression `r` can consume a prefix of `s`, leaving
`s'`, and turn the submatches `c` into `c'`. -/
def Re.Matches : Re → Str → Caps → Str → Caps → Prop
  | .eps, s, c, s', c' => s' = s ∧ c' = c
  | .cls p, s, c, s', c' => ∃ x, s = x :: s' ∧ p x = true ∧ c' = c
  | .star p, s, c, s', c' => ∃ pre, s = pre ++ s' ∧ (∀ x ∈ pre, p x = true) ∧ c' = c
  | .seq a b, s, c, s', c' => ∃ s1 c1, a.Matches s c s1 c1 ∧ b.Matches s1 c1 s' c'
  | .alt a b, s, c, s', c' => a.Matches s c s' c' ∨ b.Matches s c s' c'
  | .grp i r, s, c, s', c' =>
    ∃ c1, r.Matches s c s' c1 ∧ c' = c1.set i (s.take (s.length - s'.length))

/-- The group numbers an expression can set. -/
def Re.groups : Re → List Nat
  | .eps => []
  | .cls _ => []
  | .star _ => []
  | .seq a b => a.groups ++ b.groups
  | .alt a b => a.groups ++ b.groups
  | .grp i r => i :: r.groups

/-- Does the line hold a colon that is followed, somewhere later, by a `<`? -/
def colonBeforeLt : Str → Bool
  | [] => false
  | c :: cs => (c == ':' && cs.contains '<') || colonBeforeLt cs

/-! ## Cleaned relative paths -/

/-- The segment lists of cleaned relative paths: some `..` segments, then
segments that are neither empty, `.` nor `..`; no segment holds a slash. -/
def CleanSegs (st : List Str) : Prop :=
  ∃ (n : Nat) (normal : List Str), st = List.replicate n ['.', '.'] ++ normal ∧
    ∀ x ∈ normal, x ≠ [] ∧ x ≠ ['.'] ∧ x ≠ ['.', '.'] ∧ '/' ∉ x

/-- The enclosing directory as the specification words it: the path with its
final `/`-separated segment dropped, `.` when nothing is left. -/
def dropLastSegment (k : Str) : Str :=
  match (splitSlash k).dropLast with
  | [] => ['.']
  | segs => List.intercalate ['/'] segs

/-- The value `ReviewPatch` stores for a key: the entry of the map for the
directory its loop computes, the empty list when the map has none. -/
def ownersOf (maintainersDirMap : GoMap (List Maintainer)) (k : Str) : List Maintainer :=
  (maintainersDirMap.lookup (targetDirOf k)).getD []

/-- The specification's "nearest enclosing directory that is a key of the map":
climb from the file's directory towards `.` until a key is found (`fuel` bounds
the climb). -/
def nearestEnclosing (M : GoMap (List Maintainer)) : Nat → Str → Option (List Maintainer)
  | 0, _ => none
  | fuel + 1, k =>
    match M.lookup (dropLastSegment k) with
    | some l => some l
    | none => if dropLastSegment k = ['.'] then none else nearestEnclosing M fuel (dropLastSegment k)

/-! ## Trees, paths into them, and who is listed where -/

/-- Is the entry a declaration file (name equal to `MAINTAINERS` ignoring case)? -/
def Entry.isDecl (e : Entry) : Bool := equalFold e.name MaintainerManagersFileName

/-- Does the directory with these entries contain a declaration file? -/
def hasDeclFile (names : List Entry) : Bool := names.any Entry.isDecl

/-- A line is well-formed when the pattern accepts it and it has an email or a handle. -/
def wellFormedLine (line : Str) : Bool :=
  match parseMaintainer line with
  | none => false
  | some m => !(decide (m.Username = []) && decide (m.Email = []))

/-- The line declares the identifier `x`: its trimmed email or its trimmed
handle is non-empty and equal to `x`. -/
def lineDeclares (line x : Str) : Bool :=
  match parseMaintainer line with
  | none => false
  | some m => (decide (m.Email ≠ []) && decide (m.Email = x)) ||
      (decide (m.Username ≠ []) && decide (m.Username = x))

/-- The line matches the identifier `x` in the plain sense: its trimmed email or
its trimmed handle equals `x`, empty or not. -/
def lineEquals (line x : Str) : Bool :=
  match parseMaintainer line with
  | none => false
  | some m => decide (m.Email = x) || decide (m.Username = x)

/-- Some line of some declaration file among the entries declares the acting
email or the acting handle. -/
def listsUser (names : List Entry) (maintainerEmail userName : Str) : Bool :=
  names.any fun e => e.isDecl &&
    e.scanLines.any fun line => lineDeclares line maintainerEmail || lineDeclares line userName

/-- The same with plain equality, as the unamended claim words it. -/
def equalsUser (names : List Entry) (maintainerEmail userName : Str) : Bool :=
  names.any fun e => e.isDecl &&
    e.scanLines.any fun line => lineEquals line maintainerEmail || lineEquals line userName

/-- The names of the sub-directories among the entries. -/
def dirNames : List Entry → List Str
  | [] => []
  | .file _ _ :: es => dirNames es
  | .dir n _ _ :: es => n :: dirNames es

/-- What a file system guarantees about the sub-directories of one directory:
their names are distinct, non-empty and hold no slash. -/
def dirNamesOk (names : List Entry) : Bool :=
  decide ((dirNames names).Nodup) && (dirNames names).all fun n => decide (n ≠ []) && !n.contains '/'

/-- Every line of every declaration file among the entries is well-formed. -/
def declsOk (names : List Entry) : Bool :=
  names.all fun e => !e.isDecl || e.scanLines.all wellFormedLine

mutual
/-- The trees of the claims: every directory can be listed, every declaration
file is well-formed, and sub-directory names are as a file system has them. -/
def Entry.wellFormed : Entry → Bool
  | .file _ _ => true
  | .dir _ listable names => listable && declsOk names && dirNamesOk names && wellFormedAll names
/-- All entries of a list are well-formed. -/
def wellFormedAll : List Entry → Bool
  | [] => true
  | e :: es => e.wellFormed && wellFormedAll es
end

/-- The entries of the sub-directory named `n`. -/
def lookupDir : List Entry → Str → Option (List Entry)
  | [], _ => none
  | .file _ _ :: es, n => lookupDir es n
  | .dir m _ sub :: es, n => if m = n then some sub else lookupDir es n

/-- A name the walk does not descend into: it starts with a dot. -/
def hidden (n : Str) : Bool := n.head? == some '.'

/-- The entries of the directory reached from a directory with entries `names`
by descending through the sub-directory names `ns`, none of them hidden. -/
def reach : List Entry → List Str → Option (List Entry)
  | names, [] => some names
  | names, n :: ns =>
    if hidden n then none else
    match lookupDir names n with
    | none => none
    | some sub => reach sub ns

/-- The entries of the nearest proper ancestor, on the way down `ns`, that has a
declaration file. -/
def nearestDecl : List Entry → List Str → Option (List Entry)
  | _, [] => none
  | names, n :: ns =>
    match lookupDir names n with
    | none => none
    | some sub =>
      match nearestDecl sub ns with
      | some a => some a
      | none => if hasDeclFile names then some names else none

/-- The relative path of the directory reached through `ns`, as recorded: `.`
for the root, the names joined by slashes otherwise. -/
def relPath (ns : List Str) : Str :=
  if ns = [] then ['.'] else List.intercalate ['/'] ns

/-- The relative path as passed down in `cpth`: empty for the root. -/
def relOf (ns : List Str) : Str :=
  if ns = [] then [] else List.intercalate ['/'] ns

/-- The decision of `createMaintainerManagerDirectoriesMap` for a directory with
a well-formed content: recorded when it has no declaration file and
`belongsToOthers` is unset, or when a declaration file lists the acting user. -/
def ownedHere (names : List Entry) (maintainerEmail userName : Str) (belongsToOthers : Bool) :
    Bool :=
  (!hasDeclFile names && !belongsToOthers) || listsUser names maintainerEmail userName

/-- The decision for the directory reached through `ns`, the flag being handed
down from directory to directory; `false` when `ns` leads nowhere. -/
def ownedAt (maintainerEmail userName : Str) : List Entry → Bool → List Str → Bool
  | names, b, [] => ownedHere names maintainerEmail userName b
  | names, b, n :: ns =>
    if hidden n then false else
    match lookupDir names n with
    | none => false
    | some sub => ownedAt maintainerEmail userName sub
        (!ownedHere names maintainerEmail userName b) ns

/-- The entries of a directory entry (none for a file). -/
def Entry.entries : Entry → List Entry
  | .file _ _ => []
  | .dir _ _ es => es

/-- Names the walk can have descended through: non-empty, not hidden, without a slash. -/
def GoodNames (pre : List Str) : Prop :=
  ∀ x ∈ pre, x ≠ [] ∧ hidden x = false ∧ '/' ∉ x

/-- What the walk does on a well-formed directory entry reached through `pre`:
it returns no error, and adds to the list exactly the relative paths of the
directories below it (itself included) for which the decision is "recorded". -/
def WalkOk (maintainerEmail userName : Str) (e : Entry) : Prop :=
  ∀ (pre : List Str) (b : Bool) (acc : List Str),
    e.wellFormed = true → e.isDir = true → GoodNames pre →
    (createMaintainerManagerDirectoriesMap e (relOf pre) maintainerEmail userName b acc).1
        = .ok () ∧
    ∀ p, p ∈ (createMaintainerManagerDirectoriesMap e (relOf pre) maintainerEmail userName
        b acc).2 ↔
      p ∈ acc ∨ ∃ ns, ownedAt maintainerEmail userName e.entries b ns = true ∧
        p = relPath (pre ++ ns)

/-- The same for the second loop, over the entries of a directory. -/
def WalkNamesOk (maintainerEmail userName : Str) (es : List Entry) : Prop :=
  ∀ (pre : List Str) (b : Bool) (acc : List Str),
    wellFormedAll es = true → dirNamesOk es = true → GoodNames pre →
    (walkNames es (relOf pre) maintainerEmail userName b acc).1 = false ∧
    ∀ p, p ∈ (walkNames es (relOf pre) maintainerEmail userName b acc).2 ↔
      p ∈ acc ∨ ∃ n ns sub, hidden n = false ∧ lookupDir es n = some sub ∧
        ownedAt maintainerEmail userName sub b ns = true ∧ p = relPath (pre ++ n :: ns)

/-- The entries of a directory of a well-formed tree. -/
def DirOk (es : List Entry) : Prop :=
  declsOk es = true ∧ dirNamesOk es = true ∧ wellFormedAll es = true

/-! ## `MergePullRequest` -/

/-- Go `strings.Contains(s, substr)`. -/
def stringsContains (s substr : Str) : Bool := decide (substr <:+: s)

/-- The loop of `MergePullRequest` over the comment bodies: `isApproved` becomes
true at the first body that contains `LGTM`. -/
def isApprovedLoop : List Str → Bool
  | [] => false
  | body :: rest => if stringsContains body "LGTM".toList then true else isApprovedLoop rest

/-- The error `fmt.Errorf("Pull request %s has not been approved", number)`. -/
def notApprovedError (number : Str) : Str :=
  "Pull request ".toList ++ number ++ " has not been approved".toList

/-- The method `MaintainerManager.MergePullRequest` of `src/github.go`.  The remote
calls are given by their results: `getComments` is the result of `m.GetComments`
(the comment bodies), `clientMerge` the remote merge `m.client.MergePullRequest`
as a function of the number and the commit message.  The second component tells
whether the remote merge was invoked. -/
def MergePullRequest {M : Type} (number comment : Str) (force : Bool)
    (getComments : Outcome (List Str)) (clientMerge : Str → Str → Outcome M) :
    Outcome M × Bool :=
  match getComments with
  | .error msg => (.error msg, false)
  | .crash => (.crash, false)
  | .ok comments =>
    if !isApprovedLoop comments && !force then (.error (notApprovedError number), false)
    else (clientMerge number comment, true)

/-! ## `GetRemoteUrl` -/

/-- The record type `remote` of `src/utils.go`. -/
structure remote where
  Name : Str
  Url : Str
deriving DecidableEq, Repr

/-- Go `strings.TrimRight(s, cutset)`, the cutset given as a predicate. -/
def trimRight (p : Char → Bool) (s : Str) : Str := (trimLeft p s.reverse).reverse

/-- The cutset `".git"` that `GetRemoteUrl` passes to `strings.TrimRight`. -/
def isDotGitChar (c : Char) : Bool := c == '.' || c == 'g' || c == 'i' || c == 't'

/-- Go `strings.LastIndex(s, ":")`, `none` standing for `-1`. -/
def lastIndexColon (s : Str) : Option Nat :=
  if ':' ∈ s then some (s.length - 1 - s.reverse.indexOf ':') else none

/-- The body of the loop of `GetRemoteUrl` for the remote that matches: indexing
`parts[len(parts)-2]` panics when the URL has no slash. -/
def remoteOrgAndName (url : Str) : Outcome (Str × Str) :=
  let parts := splitSlash url
  if parts.length < 2 then .crash else
  let org := parts.getD (parts.length - 2) []
  let org := match lastIndexColon org with
    | some i => if i > 0 then org.drop (i + 1) else org
    | none => org
  let name := parts.getD (parts.length - 1) []
  .ok (org, trimRight isDotGitChar name)

/-- The loop of `GetRemoteUrl` over the remotes. -/
def findRemote (remoteName : Str) : List remote → Outcome (Str × Str)
  | [] => .ok ([], [])
  | r :: rest => if r.Name = remoteName then remoteOrgAndName r.Url else findRemote remoteName rest

/-- The function `GetRemoteUrl` of `src/utils.go`; `getRemotes` is the result of
the call of the same name (the output of `git remote -v`, parsed). -/
def GetRemoteUrl (remoteName : Str) (getRemotes : Outcome (List remote)) : Outcome (Str × Str) :=
  match getRemotes with
  | .error msg => .error msg
  | .crash => .crash
  | .ok remotes => findRemote remoteName remotes

/-- The repository name as the specification words it: the segment with one
trailing `.git` removed when it ends in `.git`, unchanged otherwise. -/
def trimSuffixGit (name : Str) : Str :=
  if ".git".toList <:+ name then name.take (name.length - 4) else name

/-! ## The walk and the accumulator -/

/-- The walk on an entry only appends to the global list: started from `acc` it
returns the same result as started from the empty list, and leaves `acc`
followed by what it leaves when started from the empty list. -/
def WalkAppends (maintainerEmail userName : Str) (e : Entry) : Prop :=
  ∀ (cpth : Str) (b : Bool) (acc : List Str),
    createMaintainerManagerDirectoriesMap e cpth maintainerEmail userName b acc =
      ((createMaintainerManagerDirectoriesMap e cpth maintainerEmail userName b []).1,
        acc ++ (createMaintainerManagerDirectoriesMap e cpth maintainerEmail userName b []).2)

/-- The same for the second loop of the walk. -/
def WalkNamesAppends (maintainerEmail userName : Str) (es : List Entry) : Prop :=
  ∀ (cpth : Str) (b : Bool) (acc : List Str),
    walkNames es cpth maintainerEmail userName b acc =
      ((walkNames es cpth maintainerEmail userName b []).1,
        acc ++ (walkNames es cpth maintainerEmail userName b []).2)

/-! ## Submatches that agree from group 2 on -/

/-- Two submatch lists of the same length that agree on every group from 2 on
(they may differ on the whole match, group 0, and on the marker, group 1). -/
def CapsAgree (c c' : Caps) : Prop :=
  c.length = c'.length ∧ ∀ j, 2 ≤ j → c.getD j [] = c'.getD j []

/-- Two match results that both fail, or both succeed with agreeing submatches. -/
def OptAgree : Option Caps → Option Caps → Prop
  | none, none => True
  | some c, some c' => CapsAgree c c'
  | _, _ => False

/-- The part of the pattern that follows the marker group:
`((?P<target>[^: ]*) *:|) *(?P<fullname>[a-zA-Z][^<]*) *<...`. -/
def reAfterMarker : Re :=
  .seq reTarget <| .seq (.star (· == ' ')) <| .seq reFullname <| .seq (.star (· == ' ')) reTail

/-- The final `/`-separated segment of a path. -/
def lastSegment (p : Str) : Str := ((splitSlash p).getLast?).getD []

/-! ## Declaration files proper -/

/-- The entry is a declaration file in the proper sense: a file, not a
directory, whose name equals `MAINTAINERS` ignoring case. -/
def Entry.isDeclFile (e : Entry) : Bool := !e.isDir && e.isDecl

/-- The directory with these entries contains a declaration file proper. -/
def hasDeclarationFile (names : List Entry) : Bool := names.any Entry.isDeclFile

mutual
/-- The entry is not a directory named `MAINTAINERS` (ignoring case) and has no
such directory below it. -/
def Entry.noDeclDir : Entry → Bool
  | .file _ _ => true
  | .dir n _ sub => !equalFold n MaintainerManagersFileName && noDeclDirs sub
/-- No sub-directory, at any depth below a directory with these entries, has a
name equal to `MAINTAINERS` ignoring case. -/
def noDeclDirs : List Entry → Bool
  | [] => true
  | e :: es => e.noDeclDir && noDeclDirs es
end

/-- The entries of the nearest proper ancestor, on the way down `ns`, that has a
declaration file proper. -/
def nearestDeclarationFile : List Entry → List Str → Option (List Entry)
  | _, [] => none
  | names, n :: ns =>
    match lookupDir names n with
    | none => none
    | some sub =>
      match nearestDeclarationFile sub ns with
      | some a => some a
      | none => if hasDeclarationFile names then some names else none

/-! ## Fixtures -/

/-- The identity `carol@example.com` / `carol`. -/
def carolEmail : Str := "carol@example.com".toList
def carolName : Str := "carol".toList

/-- The tree `root/{a/MAINTAINERS}` whose nested declaration file holds the one
line `Bob <>`, which has neither an email nor a handle. -/
def treeNestedMalformed : Entry :=
  .dir [] true [.dir "a".toList true [.file "MAINTAINERS".toList ["Bob <>".toList]]]

/-- The tree `root/{a/}` whose sub-directory `a` cannot be listed. -/
def treeNestedUnlistable : Entry :=
  .dir [] true [.dir "a".toList false []]

/-- The tree `root/{a/x/, a-b/}` without any declaration file. -/
def treeUnsorted : Entry :=
  .dir [] true [.dir "a".toList true [.dir "x".toList true []], .dir "a-b".toList true []]

/-- A maintainer record for `alice`. -/
def alice : Maintainer :=
  { Username := "alice".toList, FullName := "Alice".toList,
    Email := "alice@example.com".toList, Target := ['.'], Active := true, Lead := false,
    Raw := "Alice <alice@example.com> (@alice)".toList }

/-- The entries of `a/sub` in `treeNested`: a declaration file listing bob. -/
def subEntries : List Entry :=
  [.file "MAINTAINERS".toList ["Bob <bob@example.com> (@bob)".toList]]

/-- The entries of `a` in `treeNested`: a declaration file listing alice, the
sub-directory `sub`, and a sub-directory `x` without declaration file. -/
def aEntries : List Entry :=
  [.file "MAINTAINERS".toList ["Alice <alice@example.com> (@alice)".toList],
   .dir "sub".toList true subEntries,
   .dir "x".toList true []]

/-- The tree `root/{a/MAINTAINERS(alice), a/sub/MAINTAINERS(bob), a/x/}`. -/
def treeNested : Entry := .dir [] true [.dir "a".toList true aEntries]

/-- A tree whose root holds a declaration file with the one line
`Alice <alice@example.com>`, which has no handle. -/
def treeNoHandle : Entry :=
  .dir [] true [.file "MAINTAINERS".toList ["Alice <alice@example.com>".toList]]

/-- A tree whose root holds a declaration file with the one line
`Alice <alice@example.com> (@ )`, whose handle is blank. -/
def treeBlankHandle : Entry :=
  .dir [] true [.file "MAINTAINERS".toList ["Alice <alice@example.com> (@ )".toList]]

/-- The line `#Alice <alice@example.com> (@alice)`, disabled by the marker. -/
def disabledLine : Str := "#Alice <alice@example.com> (@alice)".toList

/-- The record `parseMaintainer` returns for `disabledLine`. -/
def aliceDisabled : Maintainer :=
  { Username := "alice".toList, FullName := "Alice".toList,
    Email := "alice@example.com".toList, Target := ['.'], Active := false, Lead := false,
    Raw := disabledLine }

/-- The entries of a directory whose declaration file holds only `disabledLine`. -/
def disabledEntries : List Entry := [.file "MAINTAINERS".toList [disabledLine]]

/-- The tree of the specification's example:
`root/{a/MAINTAINERS(alice), a/x/, b/MAINTAINERS(bob)}`. -/
def treeSpec : Entry :=
  .dir [] true
    [.dir "a".toList true
      [.file "MAINTAINERS".toList ["Alice <alice@example.com> (@alice)".toList],
       .dir "x".toList true []],
     .dir "b".toList true
      [.file "MAINTAINERS".toList ["Bob <bob@example.com> (@bob)".toList]]]

/-- The tree `treeSpec` with one more sibling `c/y/` that has no declaration file. -/
def treeSpecSibling : Entry :=
  .dir [] true
    [.dir "a".toList true
      [.file "MAINTAINERS".toList ["Alice <alice@example.com> (@alice)".toList],
       .dir "x".toList true []],
     .dir "b".toList true
      [.file "MAINTAINERS".toList ["Bob <bob@example.com> (@bob)".toList]],
     .dir "c".toList true [.dir "y".toList true []]]

/-- The tree `root/{maintainers/, src/}`: two empty sub-directories, one of them
named `maintainers`; there is no file in the tree at all. -/
def treeDirNamedMaintainers : Entry :=
  .dir [] true [.dir "maintainers".toList true [], .dir "src".toList true []]

/-! # Theorems -/

/-- C3, evaluated: a malformed line in a nested declaration file, or a nested
directory that cannot be listed, makes the recursive call return an error, but the
build on the root discards it and returns no error. -/
theorem build_discards_nested_errors :
    getMaintainerManagersIds ["Bob <>".toList]
        = .error "Incorrect maintainer format: Bob <>".toList ∧
      (createMaintainerManagerDirectoriesMap
        (.dir "a".toList true [.file "MAINTAINERS".toList ["Bob <>".toList]])
        "a".toList carolEmail carolName false []).1
        = .error "Incorrect maintainer format: Bob <>".toList ∧
      (build treeNestedMalformed carolEmail carolName []).1 = .ok () ∧
      (build treeNestedUnlistable carolEmail carolName []).1 = .ok () := by
  decide

/-- C5, evaluated: on the tree `root/{a/x/, a-b/}` the build from an empty
accumulator leaves `paths = [".", "a", "a/x", "a-b"]`, which is not in ascending
string order (`"a-b" < "a/x"`). -/
theorem build_paths_not_sorted :
    (build treeUnsorted carolEmail carolName []).2
        = [".".toList, "a".toList, "a/x".toList, "a-b".toList] ∧
      ¬ ((build treeUnsorted carolEmail carolName []).2).Sorted (· ≤ ·) := by
  decide

/-- C4, evaluated: with the ownership set built for `root/{a/x/, a-b/}`, a change
whose only file is `a-b/z.go` lies in the owned directory `a-b`, yet the filter
with `showAll = false` does not return it. -/
theorem filter_misses_owned_directory :
    pathDir "a-b/z.go".toList ∈ (build treeUnsorted carolEmail carolName []).2 ∧
      GetPullRequestsThatICareAbout (build treeUnsorted carolEmail carolName []).2 false
        (.ok [7]) (fun _ => .ok ["a-b/z.go".toList]) = .ok [] := by
  decide

/-- C8, evaluated: a blank line, and a line without angle brackets, do not match
the pattern, so `parseMaintainer` panics and `getMaintainerManagersIds` returns
no error value at all. -/
theorem blank_line_panics :
    parseMaintainer [] = none ∧ getMaintainerManagersIds [[]] = .crash ∧
      parseMaintainer "Bob Builder".toList = none ∧
      getMaintainerManagersIds ["Bob Builder".toList] = .crash := by
  decide

/-! ## The matcher and its relational reading -/

theorem starGreedy_sound {α : Type} (p : Char → Bool) (k : Str → Option α) (res : α) :
    ∀ s : Str, starGreedy p k s = some res →
      ∃ pre s', s = pre ++ s' ∧ (∀ x ∈ pre, p x = true) ∧ k s' = some res := by
  intro s
  induction s with
  | nil =>
    intro h
    exact ⟨[], [], rfl, by simp, by simpa [starGreedy] using h⟩
  | cons x xs ih =>
    intro h
    rw [starGreedy] at h
    by_cases hp : p x = true
    · rw [if_pos hp] at h
      cases hrec : starGreedy p k xs with
      | some r =>
        rw [hrec] at h
        obtain ⟨pre, s', hs, hall, hk⟩ := ih (by rw [hrec, ← Option.some.inj h])
        refine ⟨x :: pre, s', by simp [hs], ?_, hk⟩
        intro y hy
        rcases List.mem_cons.1 hy with rfl | hy
        · exact hp
        · exact hall y hy
      | none =>
        rw [hrec] at h
        exact ⟨[], x :: xs, rfl, by simp, h⟩
    · rw [if_neg hp] at h
      exact ⟨[], x :: xs, rfl, by simp, h⟩

theorem Re.run_sound (r : Re) :
    ∀ (s : Str) (c : Caps) (k : Str → Caps → Option Caps) (res : Caps),
      r.run s c k = some res → ∃ s' c', r.Matches s c s' c' ∧ k s' c' = some res := by
  induction r with
  | eps =>
    intro s c k res h
    exact ⟨s, c, ⟨rfl, rfl⟩, h⟩
  | cls p =>
    intro s c k res h
    cases s with
    | nil => simp [Re.run] at h
    | cons x xs =>
      by_cases hp : p x = true
      · simp only [Re.run, if_pos hp] at h
        exact ⟨xs, c, ⟨x, rfl, hp, rfl⟩, h⟩
      · simp [Re.run, hp] at h
  | star p =>
    intro s c k res h
    obtain ⟨pre, s', hs, hall, hk⟩ := starGreedy_sound p (fun s' => k s' c) res s h
    exact ⟨s', c, ⟨pre, hs, hall, rfl⟩, hk⟩
  | seq a b iha ihb =>
    intro s c k res h
    obtain ⟨s1, c1, ha, h1⟩ := iha s c _ res h
    obtain ⟨s2, c2, hb, h2⟩ := ihb s1 c1 k res h1
    exact ⟨s2, c2, ⟨s1, c1, ha, hb⟩, h2⟩
  | alt a b iha ihb =>
    intro s c k res h
    rw [Re.run] at h
    cases hrun : a.run s c k with
    | some r =>
      rw [hrun] at h
      obtain ⟨s', c', ha, hk⟩ := iha s c k res (by rw [hrun]; exact h)
      exact ⟨s', c', Or.inl ha, hk⟩
    | none =>
      rw [hrun] at h
      obtain ⟨s', c', hb, hk⟩ := ihb s c k res h
      exact ⟨s', c', Or.inr hb, hk⟩
  | grp i r ih =>
    intro s c k res h
    obtain ⟨s', c1, hr, hk⟩ := ih s c _ res h
    exact ⟨s', _, ⟨c1, hr, rfl⟩, hk⟩

theorem Re.Matches.suffix (r : Re) :
    ∀ (s : Str) (c : Caps) (s' : Str) (c' : Caps), r.Matches s c s' c' → s' <:+ s := by
  induction r with
  | eps => intro s c s' c' h; rw [h.1]
  | cls p =>
    intro s c s' c' h
    obtain ⟨x, hs, _, _⟩ := h
    exact ⟨[x], by simp [hs]⟩
  | star p =>
    intro s c s' c' h
    obtain ⟨pre, hs, _, _⟩ := h
    exact ⟨pre, hs.symm⟩
  | seq a b iha ihb =>
    intro s c s' c' h
    obtain ⟨s1, c1, ha, hb⟩ := h
    exact (ihb _ _ _ _ hb).trans (iha _ _ _ _ ha)
  | alt a b iha ihb =>
    intro s c s' c' h
    rcases h with h | h
    · exact iha _ _ _ _ h
    · exact ihb _ _ _ _ h
  | grp i r ih =>
    intro s c s' c' h
    obtain ⟨c1, hr, _⟩ := h
    exact ih _ _ _ _ hr

/-- Submatches of groups that do not occur in an expression are left alone. -/
theorem Re.Matches.frame (r : Re) :
    ∀ (s : Str) (c : Caps) (s' : Str) (c' : Caps), r.Matches s c s' c' →
      ∀ j, j ∉ r.groups → c'.getD j [] = c.getD j [] := by
  induction r with
  | eps => intro s c s' c' h j _; rw [h.2]
  | cls p => intro s c s' c' h j _; obtain ⟨x, _, _, hc⟩ := h; rw [hc]
  | star p => intro s c s' c' h j _; obtain ⟨x, _, _, hc⟩ := h; rw [hc]
  | seq a b iha ihb =>
    intro s c s' c' h j hj
    obtain ⟨s1, c1, ha, hb⟩ := h
    simp only [Re.groups, List.mem_append, not_or] at hj
    rw [ihb _ _ _ _ hb j hj.2, iha _ _ _ _ ha j hj.1]
  | alt a b iha ihb =>
    intro s c s' c' h j hj
    simp only [Re.groups, List.mem_append, not_or] at hj
    rcases h with h | h
    · exact iha _ _ _ _ h j hj.1
    · exact ihb _ _ _ _ h j hj.2
  | grp i r ih =>
    intro s c s' c' h j hj
    obtain ⟨c1, hr, hc⟩ := h
    simp only [Re.groups, List.mem_cons, not_or] at hj
    rw [hc, ← ih _ _ _ _ hr j hj.2]
    simp [List.getD_eq_getElem?_getD, List.getElem?_set_ne (Ne.symm hj.1)]

theorem findStringSubmatch_matches (line : Str) (caps : Caps)
    (h : findStringSubmatch maintainerRe line = some caps) :
    maintainerRe.Matches line (line :: List.replicate 7 []) [] caps := by
  obtain ⟨s', c', hm, hk⟩ := Re.run_sound _ _ _ _ _ h
  by_cases hs : s' = []
  · subst hs
    simp only [if_true, Option.some.injEq] at hk
    subst hk
    exact hm
  · simp [hs] at hk

theorem colonBeforeLt_split (A B : Str) (hB : '<' ∈ B) :
    colonBeforeLt (A ++ ':' :: B) = true := by
  induction A with
  | nil => simp [colonBeforeLt, hB]
  | cons a A ih => simp [colonBeforeLt, ih]

theorem Re.Matches.seq_inv {a b : Re} {s s' : Str} {c c' : Caps}
    (h : (Re.seq a b).Matches s c s' c') :
    ∃ s1 c1, a.Matches s c s1 c1 ∧ b.Matches s1 c1 s' c' := h

theorem Re.Matches.alt_inv {a b : Re} {s s' : Str} {c c' : Caps}
    (h : (Re.alt a b).Matches s c s' c') : a.Matches s c s' c' ∨ b.Matches s c s' c' := h

theorem Re.Matches.grp_inv {i : Nat} {r : Re} {s s' : Str} {c c' : Caps}
    (h : (Re.grp i r).Matches s c s' c') :
    ∃ c1, r.Matches s c s' c1 ∧ c' = c1.set i (s.take (s.length - s'.length)) := h

theorem Re.Matches.star_inv {p : Char → Bool} {s s' : Str} {c c' : Caps}
    (h : (Re.star p).Matches s c s' c') :
    ∃ pre, s = pre ++ s' ∧ (∀ x ∈ pre, p x = true) ∧ c' = c := h

theorem Re.Matches.eps_inv {s s' : Str} {c c' : Caps}
    (h : Re.eps.Matches s c s' c') : s' = s ∧ c' = c := h

theorem Re.Matches.lit_inv {ch : Char} {s s' : Str} {c c' : Caps}
    (h : (Re.lit ch).Matches s c s' c') : s = ch :: s' ∧ c' = c := by
  obtain ⟨x, hs, hx, hc⟩ := h
  have : x = ch := by simpa using hx
  subst this
  exact ⟨hs, hc⟩

theorem getD_set_ne (c : Caps) (i j : Nat) (v : Str) (h : i ≠ j) :
    (c.set i v).getD j [] = c.getD j [] := by
  simp [List.getD_eq_getElem?_getD, List.getElem?_set_ne h]

/-- The pieces of a successful match of the whole pattern: what is left and the
submatches after the marker, after the target group, and before the `<`. -/
theorem maintainerRe_pieces (line : Str) (caps : Caps)
    (h : findStringSubmatch maintainerRe line = some caps) :
    ∃ (s1 : Str) (c1 : Caps) (s2 : Str) (c2 : Caps) (s3 : Str) (c3 : Caps) (s6 : Str) (c6 : Caps),
      s1 <:+ line ∧ reMarker.Matches s1 (line :: List.replicate 7 []) s2 c2 ∧
      c1 = line :: List.replicate 7 [] ∧
      reTarget.Matches s2 c2 s3 c3 ∧
      (Re.seq (Re.star (· == ' ')) (Re.seq reFullname (Re.star (· == ' ')))).Matches s3 c3 s6 c6 ∧
      reTail.Matches s6 c6 [] caps := by
  have hm := findStringSubmatch_matches line caps h
  unfold maintainerRe at hm
  obtain ⟨s1, c1, h1, hm1⟩ := hm.seq_inv
  obtain ⟨s2, c2, h2, hm2⟩ := hm1.seq_inv
  obtain ⟨s3, c3, h3, hm3⟩ := hm2.seq_inv
  obtain ⟨s4, c4, h4, hm4⟩ := hm3.seq_inv
  obtain ⟨s5, c5, h5, hm5⟩ := hm4.seq_inv
  obtain ⟨s6, c6, h6, hm6⟩ := hm5.seq_inv
  obtain ⟨pre1, hs1, -, hc1⟩ := h1.star_inv
  subst hc1
  exact ⟨s1, _, s2, c2, s3, c3, s6, c6, ⟨pre1, hs1.symm⟩, h2, rfl, h3,
    ⟨s4, c4, h4, s5, c5, h5, h6⟩, hm6⟩

/-- The submatch of the target group is empty unless a colon precedes a `<`. -/
theorem target_group_empty (line : Str) (caps : Caps)
    (h : findStringSubmatch maintainerRe line = some caps)
    (hcolon : colonBeforeLt line = false) : caps.getD 3 [] = [] := by
  obtain ⟨s1, c1, s2, c2, s3, c3, s6, c6, hsuf1, h2, -, h3, hmid, htail⟩ :=
    maintainerRe_pieces line caps h
  have hf1 := Re.Matches.frame _ _ _ _ _ htail 3 (by decide)
  have hf2 := Re.Matches.frame _ _ _ _ _ hmid 3 (by decide)
  have hf3 := Re.Matches.frame _ _ _ _ _ h2 3 (by decide)
  have hsuf2 : s2 <:+ line := (Re.Matches.suffix _ _ _ _ _ h2).trans hsuf1
  have hlt : '<' ∈ s3 := by
    unfold reTail at htail
    obtain ⟨s7, c7, hl, -⟩ := htail.seq_inv
    have hs6 : s6 = '<' :: s7 := hl.lit_inv.1
    exact (Re.Matches.suffix _ _ _ _ _ hmid).subset (by simp [hs6])
  rw [hf1, hf2]
  unfold reTarget at h3
  obtain ⟨c3', halt, hc3⟩ := h3.grp_inv
  rcases halt.alt_inv with hA | hB
  · exfalso
    obtain ⟨sa, ca, hg, hA⟩ := hA.seq_inv
    obtain ⟨sb, cb, hsp, hl⟩ := hA.seq_inv
    have hsb' : sb = ':' :: s3 := hl.lit_inv.1
    have hsuf : sb <:+ line :=
      ((Re.Matches.suffix _ _ _ _ _ hsp).trans (Re.Matches.suffix _ _ _ _ _ hg)).trans hsuf2
    obtain ⟨Y, hY⟩ := hsuf
    rw [hsb'] at hY
    rw [← hY, colonBeforeLt_split Y s3 hlt] at hcolon
    exact Bool.noConfusion hcolon
  · rw [hc3, hB.eps_inv.2, getD_set_ne _ _ _ _ (by decide), hf3]
    rfl

/-- The submatch of the username group is empty unless the line holds `(@`. -/
theorem username_group_empty (line : Str) (caps : Caps)
    (h : findStringSubmatch maintainerRe line = some caps)
    (hno : ¬ ['(', '@'] <:+: line) : caps.getD 7 [] = [] := by
  obtain ⟨s1, c1, s2, c2, s3, c3, s6, c6, hsuf1, h2, -, h3, hmid, htail⟩ :=
    maintainerRe_pieces line caps h
  have hf2 := Re.Matches.frame _ _ _ _ _ hmid 7 (by decide)
  have hf3 := Re.Matches.frame _ _ _ _ _ h3 7 (by decide)
  have hf4 := Re.Matches.frame _ _ _ _ _ h2 7 (by decide)
  have hsuf6 : s6 <:+ line :=
    (((Re.Matches.suffix _ _ _ _ _ hmid).trans (Re.Matches.suffix _ _ _ _ _ h3)).trans
      (Re.Matches.suffix _ _ _ _ _ h2)).trans hsuf1
  unfold reTail at htail
  obtain ⟨s7, c7, h7, ht7⟩ := htail.seq_inv
  obtain ⟨s8, c8, h8, ht8⟩ := ht7.seq_inv
  obtain ⟨s9, c9, h9, ht9⟩ := ht8.seq_inv
  obtain ⟨s10, c10, h10, ht10⟩ := ht9.seq_inv
  obtain ⟨s11, c11, h11, h12⟩ := ht10.seq_inv
  have hsuf10 : s10 <:+ line :=
    ((((Re.Matches.suffix _ _ _ _ _ h10).trans (Re.Matches.suffix _ _ _ _ _ h9)).trans
      (Re.Matches.suffix _ _ _ _ _ h8)).trans (Re.Matches.suffix _ _ _ _ _ h7)).trans hsuf6
  have e12 : caps = c11 := h12.star_inv.choose_spec.2.2
  have e10 : c10 = c9 := h10.star_inv.choose_spec.2.2
  have e9 : c9 = c8 := h9.lit_inv.2
  have e8 := Re.Matches.frame _ _ _ _ _ h8 7 (by decide)
  have e7 : c7 = c6 := h7.lit_inv.2
  unfold reUsername at h11
  obtain ⟨c11', halt, hc11⟩ := h11.grp_inv
  rcases halt.alt_inv with hA | hB
  · exfalso
    obtain ⟨sa, ca, hl1, hA⟩ := hA.seq_inv
    obtain ⟨sb, cb, hl2, -⟩ := hA.seq_inv
    apply hno
    obtain ⟨Y, hY⟩ := hsuf10
    refine ⟨Y, sb, ?_⟩
    rw [← hY, hl1.lit_inv.1, hl2.lit_inv.1]
    simp
  · rw [e12, hc11, hB.eps_inv.2, getD_set_ne _ _ _ _ (by decide), e10, e9, e8, e7, hf2, hf3, hf4]
    rfl

/-- C10 (amended): in the record parsed from an accepted line, `Target` is `.`
(not the empty string) when the line has no `target:` prefix, that is, no colon
that comes before a `<`; and `Username` is the empty string when the line has no
`(@handle)` part, that is, does not contain `(@`. -/
theorem parseMaintainer_absent_fields (line : Str) (m : Maintainer)
    (h : parseMaintainer line = some m) :
    (colonBeforeLt line = false → m.Target = ['.']) ∧
      (¬ ['(', '@'] <:+: line → m.Username = []) := by
  unfold parseMaintainer at h
  cases hf : findStringSubmatch maintainerRe line with
  | none => rw [hf] at h; exact Option.noConfusion h
  | some caps =>
    rw [hf] at h
    have hm := Option.some.inj h
    subst hm
    constructor
    · intro hcolon
      show pathBase (pathClean (caps.getD 3 [])) = ['.']
      rw [target_group_empty line caps hf hcolon]
      decide
    · intro hno
      show trim isBlank (caps.getD 7 []) = []
      rw [username_group_empty line caps hf hno]
      rfl

/-- Witness of `parseMaintainer_absent_fields` on the line `Alice <alice@example.com>`. -/
theorem parseMaintainer_absent_fields_witness :
    (parseMaintainer "Alice <alice@example.com>".toList).isSome = true ∧
      ∀ m, parseMaintainer "Alice <alice@example.com>".toList = some m →
        m.Target = ['.'] ∧ m.Username = [] :=
  ⟨by decide, fun m hm =>
    ⟨(parseMaintainer_absent_fields _ m hm).1 (by decide),
     (parseMaintainer_absent_fields _ m hm).2 (by decide)⟩⟩

/-- C10, counterexample: the accepted line `Alice <alice@example.com>` has no
`target:` prefix, and its parsed `Target` is `.`, not the empty string. -/
theorem target_absent_is_dot :
    (parseMaintainer "Alice <alice@example.com>".toList).map (·.Target) = some ['.'] ∧
      ¬ (parseMaintainer "Alice <alice@example.com>".toList).map (·.Target) = some [] := by
  decide

/-! ## `path.Clean` on relative paths -/

theorem splitOnP_no_sep (p : Char → Bool) (s : Str) :
    ∀ l ∈ s.splitOnP p, ∀ x ∈ l, p x = false := by
  induction s with
  | nil => intro l hl; simp at hl; subst hl; simp
  | cons a s ih =>
    intro l hl
    rw [List.splitOnP_cons] at hl
    by_cases ha : p a = true
    · rw [if_pos ha] at hl
      rcases List.mem_cons.1 hl with rfl | hl
      · simp
      · exact ih l hl
    · rw [if_neg ha] at hl
      cases hsp : List.splitOnP p s with
      | nil => exact absurd hsp (List.splitOnP_ne_nil p s)
      | cons h t =>
        rw [hsp] at hl ih
        simp only [List.modifyHead_cons, List.mem_cons] at hl
        rcases hl with rfl | hl
        · intro x hx
          rcases List.mem_cons.1 hx with rfl | hx
          · simpa using ha
          · exact ih h (List.mem_cons_self _ _) x hx
        · exact ih l (List.mem_cons_of_mem _ hl)

theorem splitSlash_no_slash (s : Str) : ∀ l ∈ splitSlash s, '/' ∉ l := by
  intro l hl hmem
  have := splitOnP_no_sep (· == '/') s l hl '/' hmem
  simp at this

theorem CleanSegs.nil : CleanSegs [] := ⟨0, [], rfl, by simp⟩

theorem CleanSegs.no_slash {st : List Str} (h : CleanSegs st) : ∀ x ∈ st, '/' ∉ x := by
  obtain ⟨n, normal, rfl, hn⟩ := h
  intro x hx
  rcases List.mem_append.1 hx with hx | hx
  · rw [List.eq_of_mem_replicate hx]; decide
  · exact (hn x hx).2.2.2

theorem CleanSegs.ne_nil {st : List Str} (h : CleanSegs st) : ∀ x ∈ st, x ≠ [] ∧ x ≠ ['.'] := by
  obtain ⟨n, normal, rfl, hn⟩ := h
  intro x hx
  rcases List.mem_append.1 hx with hx | hx
  · rw [List.eq_of_mem_replicate hx]; decide
  · exact ⟨(hn x hx).1, (hn x hx).2.1⟩

theorem CleanSegs.left {a b : List Str} (h : CleanSegs (a ++ b)) : CleanSegs a := by
  obtain ⟨n, normal, heq, hn⟩ := h
  rcases List.append_eq_append_iff.1 heq with ⟨t, h1, h2⟩ | ⟨t, h1, h2⟩
  · -- `a` is a prefix of the `..` part
    have : a = List.replicate a.length ['.', '.'] := by
      apply List.eq_replicate_iff.2
      refine ⟨rfl, fun x hx => ?_⟩
      have : x ∈ List.replicate n ['.', '.'] := by rw [h1]; exact List.mem_append_left _ hx
      exact List.eq_of_mem_replicate this
    exact ⟨a.length, [], by simpa using this, by simp⟩
  · -- `a` reaches into the normal part
    exact ⟨n, t, h1, fun x hx => hn x (by rw [h2]; exact List.mem_append_left _ hx)⟩

theorem CleanSegs.snoc_normal {st : List Str} {seg : Str} (h : CleanSegs st)
    (h1 : seg ≠ []) (h2 : seg ≠ ['.']) (h3 : seg ≠ ['.', '.']) (h4 : '/' ∉ seg) :
    CleanSegs (st ++ [seg]) := by
  obtain ⟨n, normal, rfl, hn⟩ := h
  refine ⟨n, normal ++ [seg], by simp, ?_⟩
  intro x hx
  rcases List.mem_append.1 hx with hx | hx
  · exact hn x hx
  · rw [List.mem_singleton.1 hx]; exact ⟨h1, h2, h3, h4⟩

theorem CleanSegs.all_dotdot_of_last {st : List Str} (h : CleanSegs (st ++ [['.', '.']])) :
    ∀ x ∈ st, x = ['.', '.'] := by
  obtain ⟨n, normal, heq, hn⟩ := h
  have hnil : normal = [] := by
    by_contra hne
    have hlast : (List.replicate n ['.', '.'] ++ normal).getLast? = normal.getLast? :=
      List.getLast?_append_of_ne_nil _ hne
    rw [← heq, List.getLast?_concat] at hlast
    have hmem : ['.', '.'] ∈ normal := List.mem_of_getLast?_eq_some hlast.symm
    exact (hn _ hmem).2.2.1 rfl
  subst hnil
  intro x hx
  have : x ∈ List.replicate n ['.', '.'] := by
    have h2 : x ∈ st ++ [['.', '.']] := List.mem_append_left _ hx
    rw [heq] at h2
    simpa using h2
  exact List.eq_of_mem_replicate this

theorem cleanStep_push {acc : List Str} {seg : Str} (h : CleanSegs (acc ++ [seg])) :
    cleanStep false acc seg = acc ++ [seg] := by
  have hseg := h.ne_nil seg (by simp)
  unfold cleanStep
  rw [if_neg (by simp [hseg.1, hseg.2])]
  by_cases hdd : seg = ['.', '.']
  · subst hdd
    rw [if_pos rfl]
    have hall := h.all_dotdot_of_last
    cases hl : acc.getLast? with
    | none => simp
    | some top =>
      have : top = ['.', '.'] := hall top (List.mem_of_getLast?_eq_some hl)
      simp [this]
  · rw [if_neg hdd]

theorem foldl_cleanStep_id (st : List Str) :
    ∀ acc : List Str, CleanSegs (acc ++ st) → st.foldl (cleanStep false) acc = acc ++ st := by
  induction st with
  | nil => intro acc _; simp
  | cons seg st ih =>
    intro acc h
    have h' : CleanSegs ((acc ++ [seg]) ++ st) := by simpa using h
    rw [List.foldl_cons, cleanStep_push h'.left, ih _ h']
    simp

theorem cleanStep_clean {st : List Str} {seg : Str} (h : CleanSegs st) (hs : '/' ∉ seg) :
    CleanSegs (cleanStep false st seg) := by
  unfold cleanStep
  by_cases h1 : seg = [] ∨ seg = ['.']
  · rw [if_pos h1]; exact h
  · rw [if_neg h1]
    by_cases hdd : seg = ['.', '.']
    · rw [if_pos hdd]
      cases hl : st.getLast? with
      | none =>
        have : st = [] := List.getLast?_eq_none_iff.1 hl
        subst this
        exact ⟨1, [], by simp [hdd], by simp⟩
      | some top =>
        obtain ⟨init, hinit⟩ : ∃ init, st = init ++ [top] := by
          have hne : st ≠ [] := by intro hn; simp [hn] at hl
          refine ⟨st.dropLast, ?_⟩
          have := List.dropLast_append_getLast hne
          rw [List.getLast?_eq_getLast _ hne] at hl
          rw [← Option.some.inj hl, this]
        by_cases ht : top = ['.', '.']
        · simp only [ht, if_true]
          subst hinit
          subst ht
          obtain ⟨n, normal, heq, hn⟩ := h
          have hall := CleanSegs.all_dotdot_of_last ⟨n, normal, heq, hn⟩
          refine ⟨init.length + 2, [], ?_, by simp⟩
          have hinit : init = List.replicate init.length ['.', '.'] :=
            List.eq_replicate_iff.2 ⟨rfl, hall⟩
          rw [hdd, List.append_nil]
          conv_lhs => rw [hinit]
          simp [List.replicate_succ', List.append_assoc]
        · simp only [ht, if_false]
          subst hinit
          rw [List.dropLast_concat]
          exact h.left
    · rw [if_neg hdd]
      push_neg at h1
      exact h.snoc_normal h1.1 h1.2 hdd hs

theorem foldl_cleanStep_clean (segs : List Str) (hs : ∀ l ∈ segs, '/' ∉ l) :
    ∀ acc, CleanSegs acc → CleanSegs (segs.foldl (cleanStep false) acc) := by
  induction segs with
  | nil => intro acc h; exact h
  | cons seg segs ih =>
    intro acc h
    rw [List.foldl_cons]
    exact ih (fun l hl => hs l (List.mem_cons_of_mem _ hl)) _
      (cleanStep_clean h (hs seg (List.mem_cons_self _ _)))

theorem intercalate_cons_cons (sep x y : Str) (ys : List Str) :
    List.intercalate sep (x :: y :: ys) = x ++ sep ++ List.intercalate sep (y :: ys) := by
  simp [List.intercalate, List.intersperse]

theorem intercalate_singleton (sep x : Str) : List.intercalate sep [x] = x := by
  simp [List.intercalate, List.intersperse]

theorem intercalate_snoc (sep y : Str) (xs : List Str) (h : xs ≠ []) :
    List.intercalate sep (xs ++ [y]) = List.intercalate sep xs ++ sep ++ y := by
  induction xs with
  | nil => exact absurd rfl h
  | cons x xs ih =>
    cases xs with
    | nil => simp [intercalate_cons_cons, intercalate_singleton]
    | cons x2 xs =>
      have := ih (by simp)
      rw [List.cons_append, List.cons_append, intercalate_cons_cons, ← List.cons_append, this,
        intercalate_cons_cons]
      simp [List.append_assoc]

theorem CleanSegs.intercalate_head {st : List Str} (h : CleanSegs st) (hne : st ≠ []) :
    ∃ c rest, List.intercalate ['/'] st = c :: rest ∧ c ≠ '/' := by
  cases st with
  | nil => exact absurd rfl hne
  | cons x xs =>
    have hx := h.ne_nil x (List.mem_cons_self _ _)
    have hs := h.no_slash x (List.mem_cons_self _ _)
    cases x with
    | nil => exact absurd rfl hx.1
    | cons c cs =>
      refine ⟨c, ?_, ?_, ?_⟩
      · exact (List.intercalate ['/'] ((c :: cs) :: xs)).tail
      · cases xs with
        | nil => simp [intercalate_singleton]
        | cons y ys => simp [intercalate_cons_cons]
      · intro hc; exact hs (by simp [hc])

/-- A cleaned relative path is a fixed point of `path.Clean`. -/
theorem pathClean_intercalate {st : List Str} (h : CleanSegs st) (hne : st ≠ []) :
    pathClean (List.intercalate ['/'] st) = List.intercalate ['/'] st := by
  obtain ⟨c, rest, hcr, hc⟩ := h.intercalate_head hne
  have hsplit : splitSlash (List.intercalate ['/'] st) = st :=
    List.splitOn_intercalate st '/' h.no_slash hne
  have hfold : st.foldl (cleanStep false) [] = st := by
    simpa using foldl_cleanStep_id st [] (by simpa using h)
  unfold pathClean
  rw [hsplit]
  rw [hcr]
  simp only [List.head?_cons, Option.some.injEq, hc, decide_False, reduceCtorEq, if_false,
    Bool.false_eq_true]
  rw [hfold, hcr]
  simp

theorem CleanSegs.intercalate_ne_dot {st : List Str} (h : CleanSegs st) (hne : st ≠ []) :
    List.intercalate ['/'] st ≠ ['.'] := by
  intro hdot
  have hsplit : splitSlash (List.intercalate ['/'] st) = st :=
    List.splitOn_intercalate st '/' h.no_slash hne
  rw [hdot] at hsplit
  have : st = [['.']] := by rw [← hsplit]; decide
  exact (h.ne_nil ['.'] (by simp [this])).2 rfl

theorem CleanSegs.intercalate_ne_nil {st : List Str} (h : CleanSegs st) (hne : st ≠ []) :
    List.intercalate ['/'] st ≠ [] := by
  obtain ⟨c, rest, hcr, -⟩ := h.intercalate_head hne
  rw [hcr]
  exact List.cons_ne_nil _ _

/-- Joining one more segment onto a cleaned relative path. -/
theorem pathJoin_snoc {xs : List Str} {y : Str} (h : CleanSegs (xs ++ [y])) :
    pathJoin (if xs = [] then [] else List.intercalate ['/'] xs) y
      = List.intercalate ['/'] (xs ++ [y]) := by
  have hy := h.ne_nil y (by simp)
  by_cases hxs : xs = []
  · subst hxs
    have := pathClean_intercalate h (by simp)
    simp only [List.nil_append, intercalate_singleton] at this
    simp [pathJoin, hy.1, this, intercalate_singleton]
  · have hne := h.left.intercalate_ne_nil hxs
    have hc := pathClean_intercalate h (by simp)
    rw [intercalate_snoc _ _ _ hxs] at hc ⊢
    simp only [if_neg hxs, pathJoin, if_neg hne, if_neg hy.1]
    simpa using hc

/-- The directory loop of `ReviewPatch` on a cleaned relative path. -/
theorem targetDir_fold (xs : List Str) (h : CleanSegs xs) :
    xs.foldl (fun targetDir item => if targetDir = ['.'] then item else pathJoin targetDir item)
        ['.'] = if xs = [] then ['.'] else List.intercalate ['/'] xs := by
  induction xs using List.reverseRecOn with
  | nil => simp
  | append_singleton xs y ih =>
    rw [List.foldl_append, ih h.left]
    simp only [List.foldl_cons, List.foldl_nil, List.append_ne_nil_of_right_ne_nil, if_false,
      ne_eq, not_false_eq_true, List.cons_ne_self, reduceCtorEq]
    by_cases hxs : xs = []
    · subst hxs
      simp [intercalate_singleton]
    · rw [if_neg hxs, if_neg (h.left.intercalate_ne_dot hxs)]
      have := pathJoin_snoc h
      rw [if_neg hxs] at this
      rw [this]

theorem targetDirOf_clean {st : List Str} (h : CleanSegs st) (hne : st ≠ []) :
    targetDirOf (List.intercalate ['/'] st) = dropLastSegment (List.intercalate ['/'] st) := by
  have hsplit : splitSlash (List.intercalate ['/'] st) = st :=
    List.splitOn_intercalate st '/' h.no_slash hne
  have hpre : CleanSegs st.dropLast := by
    have : st = st.dropLast ++ [st.getLast hne] := (List.dropLast_append_getLast hne).symm
    rw [this] at h
    exact h.left
  unfold targetDirOf dropLastSegment
  rw [hsplit, targetDir_fold _ hpre]
  cases hd : st.dropLast with
  | nil => simp
  | cons a as => simp

/-- The shape of `path.Clean` on a relative path. -/
theorem pathClean_relative (s : Str) (hs : s ≠ []) (hrel : s.head? ≠ some '/') :
    ∃ st, CleanSegs st ∧
      pathClean s = if st = [] then ['.'] else List.intercalate ['/'] st := by
  refine ⟨(splitSlash s).foldl (cleanStep false) [], ?_, ?_⟩
  · exact foldl_cleanStep_clean _ (splitSlash_no_slash s) [] CleanSegs.nil
  · have hcl := foldl_cleanStep_clean _ (splitSlash_no_slash s) [] CleanSegs.nil
    unfold pathClean
    simp only [if_neg hs, hrel, decide_False, Bool.false_eq_true, if_false]
    by_cases hst : (splitSlash s).foldl (cleanStep false) [] = []
    · rw [hst]; simp [List.intercalate]
    · rw [if_neg hst, if_neg (hcl.intercalate_ne_nil hst)]

theorem pathClean_rooted (s : Str) (hroot : s.head? = some '/') :
    (pathClean s).head? = some '/' := by
  have hs : s ≠ [] := by intro h; simp [h] at hroot
  simp [pathClean, hs, hroot]

/-- On a cleaned path that is not rooted, the directory `ReviewPatch` computes is
the path with its final segment dropped. -/
theorem targetDirOf_pathClean (p : Str) (hp : p ≠ [])
    (hrel : (pathClean p).head? ≠ some '/') :
    targetDirOf (pathClean p) = dropLastSegment (pathClean p) := by
  have hrel' : p.head? ≠ some '/' := fun h => hrel (pathClean_rooted p h)
  obtain ⟨st, hst, heq⟩ := pathClean_relative p hp hrel'
  rw [heq]
  by_cases hne : st = []
  · rw [if_pos hne]; decide
  · rw [if_neg hne]; exact targetDirOf_clean hst hne

/-! ## `ReviewPatch` -/

theorem lookup_isSome_iff {V : Type} (r : GoMap V) (k : Str) :
    (r.lookup k).isSome = true ↔ k ∈ r.map Prod.fst := by
  induction r with
  | nil => exact ⟨fun h => Bool.noConfusion h, fun h => absurd h (List.not_mem_nil _)⟩
  | cons kv r ih =>
    obtain ⟨k', v'⟩ := kv
    rw [List.lookup_cons, List.map_cons, List.mem_cons]
    by_cases hk : k = k'
    · subst hk
      rw [beq_self_eq_true]
      exact ⟨fun _ => Or.inl rfl, fun _ => rfl⟩
    · have hb : (k == k') = false := beq_eq_false_iff_ne.2 hk
      rw [hb]
      exact ⟨fun h => Or.inr (ih.1 h), fun h => h.elim (fun e => absurd e hk) ih.2⟩

theorem reviewTarget_keys (M r : GoMap (List Maintainer)) (t k : Str) :
    k ∈ (reviewTarget M r t).map Prod.fst ↔
      k ∈ r.map Prod.fst ∨ (t ≠ [] ∧ k = pathClean t) := by
  unfold reviewTarget
  by_cases ht : t = []
  · simp [ht]
  · simp only [if_neg ht]
    by_cases hl : (r.lookup (pathClean t)).isSome = true
    · rw [if_pos hl]
      have := (lookup_isSome_iff r (pathClean t)).1 hl
      constructor
      · exact Or.inl
      · rintro (h | ⟨-, rfl⟩)
        · exact h
        · exact this
    · rw [if_neg hl]
      simp [ht]

theorem reviewTarget_nodup (M r : GoMap (List Maintainer)) (t : Str)
    (h : (r.map Prod.fst).Nodup) : ((reviewTarget M r t).map Prod.fst).Nodup := by
  unfold reviewTarget
  by_cases ht : t = []
  · simpa [ht] using h
  · simp only [if_neg ht]
    by_cases hl : (r.lookup (pathClean t)).isSome = true
    · rw [if_pos hl]; exact h
    · rw [if_neg hl]
      have hnot : pathClean t ∉ r.map Prod.fst := fun hm => hl ((lookup_isSome_iff r _).2 hm)
      rw [List.map_append, List.nodup_append]
      refine ⟨h, by simp, ?_⟩
      intro a ha hb
      simp only [List.map_cons, List.map_nil, List.mem_singleton] at hb
      exact hnot (hb ▸ ha)

theorem reviewTarget_values (M r : GoMap (List Maintainer)) (t : Str)
    (h : ∀ kv ∈ r, kv.2 = ownersOf M kv.1) : ∀ kv ∈ reviewTarget M r t, kv.2 = ownersOf M kv.1 := by
  unfold reviewTarget
  by_cases ht : t = []
  · simpa [ht] using h
  · simp only [if_neg ht]
    by_cases hl : (r.lookup (pathClean t)).isSome = true
    · rw [if_pos hl]; exact h
    · rw [if_neg hl]
      intro kv hkv
      rcases List.mem_append.1 hkv with hkv | hkv
      · exact h kv hkv
      · rw [List.mem_singleton.1 hkv]; rfl

theorem reviewFiles_keys (M : GoMap (List Maintainer)) (files : List PatchFile) :
    ∀ (r : GoMap (List Maintainer)) (k : Str),
      k ∈ (reviewFiles M files r).map Prod.fst ↔
        k ∈ r.map Prod.fst ∨
          ∃ f ∈ files, (f.Src ≠ [] ∧ k = pathClean f.Src) ∨ (f.Dst ≠ [] ∧ k = pathClean f.Dst) := by
  induction files with
  | nil => intro r k; simp [reviewFiles]
  | cons f files ih =>
    intro r k
    rw [reviewFiles, ih]
    simp only [List.foldl_cons, List.foldl_nil, reviewTarget_keys]
    constructor
    · rintro (((h | h) | h) | ⟨g, hg, h⟩)
      · exact Or.inl h
      · exact Or.inr ⟨f, List.mem_cons_self _ _, Or.inr h⟩
      · exact Or.inr ⟨f, List.mem_cons_self _ _, Or.inl h⟩
      · exact Or.inr ⟨g, List.mem_cons_of_mem _ hg, h⟩
    · rintro (h | ⟨g, hg, h⟩)
      · exact Or.inl (Or.inl (Or.inl h))
      · rcases List.mem_cons.1 hg with rfl | hg
        · rcases h with h | h
          · exact Or.inl (Or.inr h)
          · exact Or.inl (Or.inl (Or.inr h))
        · exact Or.inr ⟨g, hg, h⟩

theorem reviewFiles_nodup (M : GoMap (List Maintainer)) (files : List PatchFile) :
    ∀ r : GoMap (List Maintainer), (r.map Prod.fst).Nodup →
      ((reviewFiles M files r).map Prod.fst).Nodup := by
  induction files with
  | nil => intro r h; exact h
  | cons f files ih =>
    intro r h
    rw [reviewFiles]
    exact ih _ (reviewTarget_nodup M _ _ (reviewTarget_nodup M _ _ h))

theorem reviewFiles_values (M : GoMap (List Maintainer)) (files : List PatchFile) :
    ∀ r : GoMap (List Maintainer), (∀ kv ∈ r, kv.2 = ownersOf M kv.1) →
      ∀ kv ∈ reviewFiles M files r, kv.2 = ownersOf M kv.1 := by
  induction files with
  | nil => intro r h; exact h
  | cons f files ih =>
    intro r h
    rw [reviewFiles]
    exact ih _ (reviewTarget_values M _ _ (reviewTarget_values M _ _ h))

theorem reviewFiles_key_source (M : GoMap (List Maintainer)) (files : List PatchFile)
    (k : Str) (v : List Maintainer) (h : (k, v) ∈ reviewFiles M files []) :
    ∃ p : Str, p ≠ [] ∧ k = pathClean p := by
  have hk : k ∈ (reviewFiles M files []).map Prod.fst := List.mem_map.2 ⟨(k, v), h, rfl⟩
  rcases (reviewFiles_keys M files [] k).1 hk with h0 | ⟨f, -, h1 | h1⟩
  · simp at h0
  · exact ⟨f.Src, h1⟩
  · exact ⟨f.Dst, h1⟩

/-- C6 (amended): `ReviewPatch` on a parsed patch returns a map whose keys are
distinct and are exactly the cleaned non-empty source and destination paths of
the file entries; at every key that is not rooted (does not begin with `/`) the
value is the entry of the directory-owners map for the key with its final
segment dropped (`.` for a root-level file), the empty list when the map has no
such entry. -/
theorem reviewPatch_keys_and_owners (files : List PatchFile) (M : GoMap (List Maintainer)) :
    ∃ res, ReviewPatch (.ok files) M = .ok res ∧
      (res.map Prod.fst).Nodup ∧
      (∀ k, k ∈ res.map Prod.fst ↔
        ∃ f ∈ files, (f.Src ≠ [] ∧ k = pathClean f.Src) ∨ (f.Dst ≠ [] ∧ k = pathClean f.Dst)) ∧
      (∀ k v, (k, v) ∈ res → k.head? ≠ some '/' →
        v = (M.lookup (dropLastSegment k)).getD []) := by
  refine ⟨reviewFiles M files [], rfl, reviewFiles_nodup M files [] (by simp), ?_, ?_⟩
  · intro k
    rw [reviewFiles_keys]
    simp
  · intro k v hkv hrel
    have hv : v = ownersOf M k := reviewFiles_values M files [] (by simp) (k, v) hkv
    obtain ⟨p, hp, rfl⟩ := reviewFiles_key_source M files k v hkv
    rw [hv, ownersOf, targetDirOf_pathClean p hp hrel]

/-- C6, the specification's examples: a modification of `src/x.go` gives one
entry, a rename `old/y.go -> new/y.go` gives two, each resolved on its own. -/
theorem reviewPatch_examples :
    ReviewPatch (.ok [⟨"src/x.go".toList, "src/x.go".toList⟩]) [("src".toList, [alice])]
        = .ok [("src/x.go".toList, [alice])] ∧
      ReviewPatch (.ok [⟨"old/y.go".toList, "new/y.go".toList⟩]) [("old".toList, [alice])]
        = .ok [("new/y.go".toList, []), ("old/y.go".toList, [alice])] := by
  decide

/-- C6, counterexample: for the rooted path `/a/b.go` the key with its final
segment dropped is `/a`, for which the map `{a: [alice]}` has no entry, yet
`ReviewPatch` records `[alice]` (it looks up `a`). -/
theorem reviewPatch_rooted_path :
    ReviewPatch (.ok [⟨"/a/b.go".toList, "/a/b.go".toList⟩]) [("a".toList, [alice])]
        = .ok [("/a/b.go".toList, [alice])] ∧
      dropLastSegment "/a/b.go".toList = "/a".toList ∧
      (List.lookup (dropLastSegment "/a/b.go".toList) [("a".toList, [alice])]).getD [] = [] := by
  decide

/-- C7 (amended): the list recorded for a file is the entry of the map for the
directory the loop computes from the file's own path (its immediate parent
directory when the path is not rooted), and it is empty as soon as the map has
no entry for that one directory, whatever the map holds for other ancestors. -/
theorem reviewPatch_parent_only (files : List PatchFile) (M : GoMap (List Maintainer)) :
    ∃ res, ReviewPatch (.ok files) M = .ok res ∧
      ∀ k v, (k, v) ∈ res →
        (M.lookup (targetDirOf k) = none → v = []) ∧
        (∀ l, M.lookup (targetDirOf k) = some l → v = l) ∧
        (k.head? ≠ some '/' → targetDirOf k = dropLastSegment k) := by
  refine ⟨reviewFiles M files [], rfl, ?_⟩
  intro k v hkv
  have hv : v = ownersOf M k := reviewFiles_values M files [] (by simp) (k, v) hkv
  refine ⟨fun hn => by rw [hv, ownersOf, hn]; rfl, fun l hl => by rw [hv, ownersOf, hl]; rfl, ?_⟩
  intro hrel
  obtain ⟨p, hp, rfl⟩ := reviewFiles_key_source M files k v hkv
  exact targetDirOf_pathClean p hp hrel

/-- C7, counterexample: with the map `{a: [alice]}` the nearest enclosing
directory of `a/b/x.go` that is a key is `a`, whose list is `[alice]`, but the
list `ReviewPatch` records for the file is empty. -/
theorem reviewPatch_ignores_ancestors :
    nearestEnclosing [("a".toList, [alice])] 8 "a/b/x.go".toList = some [alice] ∧
      ReviewPatch (.ok [⟨"a/b/x.go".toList, "a/b/x.go".toList⟩]) [("a".toList, [alice])]
        = .ok [("a/b/x.go".toList, [])] := by
  decide

/-! ## Exact evaluation of the matcher on the part of a line from `<` on -/

theorem starGreedy_stop {α : Type} (p : Char → Bool) (k : Str → Option α) (y : Char) (t : Str)
    (hy : p y = false) : starGreedy p k (y :: t) = k (y :: t) := by
  simp [starGreedy, hy]

/-- A run of class characters on which the continuation cannot start is consumed whole. -/
theorem starGreedy_skip {α : Type} (p : Char → Bool) (k : Str → Option α) (t : Str) :
    ∀ pre : Str, (∀ x ∈ pre, p x = true) → (∀ x ∈ pre, ∀ t', k (x :: t') = none) →
      starGreedy p k (pre ++ t) = starGreedy p k t := by
  intro pre
  induction pre with
  | nil => intro _ _; rfl
  | cons x pre ih =>
    intro hp hk
    have hx : p x = true := hp x (List.mem_cons_self _ _)
    have ih' := ih (fun y hy => hp y (List.mem_cons_of_mem _ hy))
      (fun y hy => hk y (List.mem_cons_of_mem _ hy))
    rw [List.cons_append, starGreedy, if_pos hx, ih']
    cases hrec : starGreedy p k t with
    | some r => rfl
    | none =>
      show k (x :: (pre ++ t)) = none
      exact hk x (List.mem_cons_self _ _) _

/-- Greedy preference: if the match succeeds after the longest run, that is the result. -/
theorem starGreedy_first {α : Type} (p : Char → Bool) (k : Str → Option α) (t : Str) (v : α)
    (hv : starGreedy p k t = some v) :
    ∀ pre : Str, (∀ x ∈ pre, p x = true) → starGreedy p k (pre ++ t) = some v := by
  intro pre
  induction pre with
  | nil => intro _; exact hv
  | cons x pre ih =>
    intro hp
    have hx : p x = true := hp x (List.mem_cons_self _ _)
    rw [List.cons_append, starGreedy, if_pos hx,
      ih (fun y hy => hp y (List.mem_cons_of_mem _ hy))]

theorem run_lit_cons (ch : Char) (s : Str) (c : Caps) (k : Str → Caps → Option Caps) :
    (Re.lit ch).run (ch :: s) c k = k s c := by
  simp [Re.lit, Re.run]

theorem run_lit_ne (ch x : Char) (s : Str) (c : Caps) (k : Str → Caps → Option Caps)
    (h : x ≠ ch) : (Re.lit ch).run (x :: s) c k = none := by
  simp [Re.lit, Re.run, h]

theorem take_length_sub (a b : Str) : (a ++ b).take ((a ++ b).length - b.length) = a := by
  simp

/-- A capturing `[^y]*` followed by something that must start with `y`. -/
theorem run_grp_star_until (i : Nat) (p : Char → Bool) (pre : Str) (y : Char) (t : Str)
    (c : Caps) (k : Str → Caps → Option Caps)
    (hpre : ∀ x ∈ pre, p x = true) (hy : p y = false)
    (hk : ∀ x ∈ pre, ∀ t' c', k (x :: t') c' = none) :
    (Re.grp i (Re.star p)).run (pre ++ y :: t) c k = k (y :: t) (c.set i pre) := by
  simp only [Re.run]
  rw [starGreedy_skip p _ (y :: t) pre hpre (fun x hx t' => hk x hx t' _),
    starGreedy_stop p _ y t hy]
  have := take_length_sub pre (y :: t)
  simp only [this]

/-- A capturing `[^y]+` followed by something that must start with `y`. -/
theorem run_grp_plus_until (i : Nat) (p : Char → Bool) (h0 : Char) (pre : Str) (y : Char)
    (t : Str) (c : Caps) (k : Str → Caps → Option Caps)
    (hh : p h0 = true) (hpre : ∀ x ∈ pre, p x = true) (hy : p y = false)
    (hk : ∀ x ∈ pre, ∀ t' c', k (x :: t') c' = none) :
    (Re.grp i (Re.seq (Re.cls p) (Re.star p))).run (h0 :: pre ++ y :: t) c k
      = k (y :: t) (c.set i (h0 :: pre)) := by
  simp only [Re.run, List.cons_append, hh, if_true]
  rw [starGreedy_skip p _ (y :: t) pre hpre (fun x hx t' => hk x hx t' _),
    starGreedy_stop p _ y t hy]
  have := take_length_sub (h0 :: pre) (y :: t)
  simp only [List.cons_append] at this
  simp only [this]

theorem run_seq (a b : Re) (s : Str) (c : Caps) (k : Str → Caps → Option Caps) :
    (Re.seq a b).run s c k = a.run s c (fun s' c' => b.run s' c' k) := rfl

theorem run_grp (i : Nat) (r : Re) (s : Str) (c : Caps) (k : Str → Caps → Option Caps) :
    (Re.grp i r).run s c k
      = r.run s c (fun s' c' => k s' (c'.set i (s.take (s.length - s'.length)))) := rfl

theorem run_star (p : Char → Bool) (s : Str) (c : Caps) (k : Str → Caps → Option Caps) :
    (Re.star p).run s c k = starGreedy p (fun s' => k s' c) s := rfl

theorem run_alt_some (a b : Re) (s : Str) (c : Caps) (k : Str → Caps → Option Caps)
    (r : Caps) (h : a.run s c k = some r) : (Re.alt a b).run s c k = some r := by
  simp [Re.run, h]

/-- The pattern from the username group on, run on `(@H)` at the end of the line. -/
theorem username_tail_run (H : Str) (c : Caps) (hH : H ≠ []) (hH2 : ')' ∉ H) :
    (Re.seq reUsername (Re.star (· != '\n'))).run ('(' :: '@' :: (H ++ [')'])) c
        (fun s c => if s = [] then some c else none)
      = some ((c.set 7 H).set 6 ('(' :: '@' :: (H ++ [')']))) := by
  cases H with
  | nil => exact absurd rfl hH
  | cons h0 H' =>
    have hh : (fun x : Char => x != ')') h0 = true := by
      have : h0 ≠ ')' := fun e => hH2 (by simp [e])
      simpa using this
    have hpre : ∀ x ∈ H', (fun x : Char => x != ')') x = true := by
      intro x hx
      have : x ≠ ')' := fun e => hH2 (by rw [← e]; exact List.mem_cons_of_mem _ hx)
      simpa using this
    rw [run_seq]
    unfold reUsername
    rw [run_grp]
    apply run_alt_some
    rw [run_seq, run_lit_cons, run_seq, run_lit_cons, run_seq]
    rw [show h0 :: H' ++ [')'] = h0 :: H' ++ ')' :: [] from rfl]
    rw [run_grp_plus_until 7 _ h0 H' ')' [] c _ hh hpre (by simp)]
    · rw [run_lit_cons, run_star]
      have htake : List.take (H'.length + 1) (H' ++ [')']) = H' ++ [')'] :=
        List.take_of_length_le (by simp)
      simp [starGreedy, htake]
    · intro x hx t' c'
      apply run_lit_ne
      intro e
      exact hH2 (by rw [← e]; exact List.mem_cons_of_mem _ hx)

/-- The pattern from `<` on, run on `<E> (@H)` at the end of a line: the email
group captures `E`, the username group `H`. -/
theorem reTail_run (E S H : Str) (c : Caps) (hE : '>' ∉ E) (hS : ∀ x ∈ S, x = ' ')
    (hH : H ≠ []) (hH2 : ')' ∉ H) :
    reTail.run ('<' :: (E ++ '>' :: (S ++ '(' :: '@' :: (H ++ [')'])))) c
        (fun s c => if s = [] then some c else none)
      = some (((c.set 5 E).set 7 H).set 6 ('(' :: '@' :: (H ++ [')']))) := by
  unfold reTail
  rw [run_seq, run_lit_cons, run_seq]
  unfold reEmail
  rw [run_grp_star_until 5 _ E '>' _ c _ (by
      intro x hx
      have : x ≠ '>' := fun e => hE (by rw [← e]; exact hx)
      simpa using this) (by simp)]
  · rw [run_seq, run_lit_cons, run_seq, run_star]
    apply starGreedy_first
    · rw [starGreedy_stop _ _ '(' _ (by decide)]
      exact username_tail_run H _ hH hH2
    · intro x hx
      simp [hS x hx]
  · intro x hx t' c'
    rw [run_seq]
    apply run_lit_ne
    intro e
    exact hE (by rw [← e]; exact hx)

theorem Re.Matches.length (r : Re) :
    ∀ (s : Str) (c : Caps) (s' : Str) (c' : Caps), r.Matches s c s' c' →
      c'.length = c.length := by
  induction r with
  | eps => intro s c s' c' h; rw [h.2]
  | cls p => intro s c s' c' h; obtain ⟨x, _, _, hc⟩ := h; rw [hc]
  | star p => intro s c s' c' h; obtain ⟨x, _, _, hc⟩ := h; rw [hc]
  | seq a b iha ihb =>
    intro s c s' c' h
    obtain ⟨s1, c1, ha, hb⟩ := h
    rw [ihb _ _ _ _ hb, iha _ _ _ _ ha]
  | alt a b iha ihb =>
    intro s c s' c' h
    rcases h with h | h
    · exact iha _ _ _ _ h
    · exact ihb _ _ _ _ h
  | grp i r ih =>
    intro s c s' c' h
    obtain ⟨c1, hr, hc⟩ := h
    rw [hc, List.length_set, ih _ _ _ _ hr]

theorem run_seq_sound (a b : Re) (s : Str) (c : Caps) (k : Str → Caps → Option Caps)
    (res : Caps) (h : (Re.seq a b).run s c k = some res) :
    ∃ s1 c1, a.Matches s c s1 c1 ∧ b.run s1 c1 k = some res :=
  Re.run_sound a s c _ res h

/-- A successful match reaches the part of the pattern from `<` on with some
suffix of the line left and eight submatch slots. -/
theorem maintainerRe_reaches_tail (line : Str) (caps : Caps)
    (h : findStringSubmatch maintainerRe line = some caps) :
    ∃ (s6 : Str) (c6 : Caps), s6 <:+ line ∧ c6.length = 8 ∧
      reTail.run s6 c6 (fun s c => if s = [] then some c else none) = some caps := by
  unfold findStringSubmatch maintainerRe at h
  obtain ⟨s1, c1, h1, r1⟩ := run_seq_sound _ _ _ _ _ _ h
  obtain ⟨s2, c2, h2, r2⟩ := run_seq_sound _ _ _ _ _ _ r1
  obtain ⟨s3, c3, h3, r3⟩ := run_seq_sound _ _ _ _ _ _ r2
  obtain ⟨s4, c4, h4, r4⟩ := run_seq_sound _ _ _ _ _ _ r3
  obtain ⟨s5, c5, h5, r5⟩ := run_seq_sound _ _ _ _ _ _ r4
  obtain ⟨s6, c6, h6, r6⟩ := run_seq_sound _ _ _ _ _ _ r5
  refine ⟨s6, c6, ?_, ?_, r6⟩
  · exact (((((Re.Matches.suffix _ _ _ _ _ h6).trans (Re.Matches.suffix _ _ _ _ _ h5)).trans
      (Re.Matches.suffix _ _ _ _ _ h4)).trans (Re.Matches.suffix _ _ _ _ _ h3)).trans
      (Re.Matches.suffix _ _ _ _ _ h2)).trans (Re.Matches.suffix _ _ _ _ _ h1)
  · rw [Re.Matches.length _ _ _ _ _ h6, Re.Matches.length _ _ _ _ _ h5,
      Re.Matches.length _ _ _ _ _ h4, Re.Matches.length _ _ _ _ _ h3,
      Re.Matches.length _ _ _ _ _ h2, Re.Matches.length _ _ _ _ _ h1]
    simp

theorem reTail_run_head (s : Str) (c : Caps) (k : Str → Caps → Option Caps) (res : Caps)
    (h : reTail.run s c k = some res) : ∃ rest, s = '<' :: rest := by
  unfold reTail at h
  rw [run_seq] at h
  cases s with
  | nil => simp [Re.lit, Re.run] at h
  | cons x rest =>
    by_cases hx : x = '<'
    · exact ⟨rest, by rw [hx]⟩
    · rw [run_lit_ne _ _ _ _ _ hx] at h
      exact Option.noConfusion h

/-- Two ways of splitting a list at its only occurrence of `x` agree. -/
theorem split_unique {x : Char} {Y rest P T : Str} (h : Y ++ x :: rest = P ++ x :: T)
    (hP : x ∉ P) (hT : x ∉ T) : rest = T := by
  rcases List.append_eq_append_iff.1 h with ⟨t, h1, h2⟩ | ⟨t, h1, h2⟩
  · cases t with
    | nil => simp at h2; exact h2
    | cons a t =>
      exfalso
      simp only [List.cons_append, List.cons.injEq] at h2
      exact hP (by rw [h1, ← h2.1]; simp)
  · cases t with
    | nil => simp at h2; exact h2.symm
    | cons a t =>
      exfalso
      simp only [List.cons_append, List.cons.injEq] at h2
      exact hT (by rw [h2.2]; simp)

/-- C9 (amended): on an accepted line `P<E>S(@H)` in which the `<` before `E`
is the only one (none in `P`, `E`, `H`), `E` holds no `>`, `S` is a run of
spaces, and `H` is non-empty without `)`, the parsed `Email` is `E` and the
parsed `Username` is `H`, each with leading and trailing spaces and tabs removed. -/
theorem parseMaintainer_email_username (P E S H : Str) (m : Maintainer)
    (hP : '<' ∉ P) (hE1 : '<' ∉ E) (hE2 : '>' ∉ E) (hS : ∀ x ∈ S, x = ' ')
    (hH : H ≠ []) (hH1 : ')' ∉ H) (hH2 : '<' ∉ H)
    (h : parseMaintainer (P ++ '<' :: (E ++ '>' :: (S ++ '(' :: '@' :: (H ++ [')'])))) = some m) :
    m.Email = trim isBlank E ∧ m.Username = trim isBlank H := by
  unfold parseMaintainer at h
  cases hf : findStringSubmatch maintainerRe
      (P ++ '<' :: (E ++ '>' :: (S ++ '(' :: '@' :: (H ++ [')'])))) with
  | none => rw [hf] at h; exact Option.noConfusion h
  | some caps =>
    rw [hf] at h
    have hm := Option.some.inj h
    subst hm
    obtain ⟨s6, c6, hsuf, hlen, hrun⟩ := maintainerRe_reaches_tail _ caps hf
    obtain ⟨rest, hs6⟩ := reTail_run_head _ _ _ _ hrun
    obtain ⟨Y, hY⟩ := hsuf
    have hT : '<' ∉ E ++ '>' :: (S ++ '(' :: '@' :: (H ++ [')'])) := by
      intro hmem
      simp only [List.mem_append, List.mem_cons, List.mem_singleton, List.not_mem_nil] at hmem
      rcases hmem with h1 | h1 | h1 | h1 | h1 | h1 | h1
      · exact hE1 h1
      · exact absurd h1 (by decide)
      · exact absurd (hS _ h1) (by decide)
      · exact absurd h1 (by decide)
      · exact absurd h1 (by decide)
      · exact hH2 h1
      · exact absurd h1 (by decide)
    rw [hs6] at hY
    have hrest := split_unique hY hP hT
    rw [hs6, hrest, reTail_run E S H c6 hE2 hS hH hH1] at hrun
    have hcaps := Option.some.inj hrun
    constructor
    · show trim isBlank (caps.getD 5 []) = trim isBlank E
      rw [← hcaps, getD_set_ne _ _ _ _ (by decide), getD_set_ne _ _ _ _ (by decide)]
      simp [List.getD_eq_getElem?_getD, hlen]
    · show trim isBlank (caps.getD 7 []) = trim isBlank H
      rw [← hcaps, getD_set_ne _ _ _ _ (by decide)]
      simp [List.getD_eq_getElem?_getD, hlen]

/-- Witness of `parseMaintainer_email_username` on the line
`Alice < alice@example.com > (@alice )`. -/
theorem parseMaintainer_email_username_witness :
    (parseMaintainer "Alice < alice@example.com > (@alice )".toList).map
        (fun m => (m.Email, m.Username))
      = some ("alice@example.com".toList, "alice".toList) := by
  have hacc : (parseMaintainer "Alice < alice@example.com > (@alice )".toList).isSome = true := by
    decide
  cases hm : parseMaintainer "Alice < alice@example.com > (@alice )".toList with
  | none => rw [hm] at hacc; exact Bool.noConfusion hacc
  | some m =>
    have := parseMaintainer_email_username "Alice ".toList " alice@example.com ".toList
      " ".toList "alice ".toList m (by decide) (by decide) (by decide) (by decide) (by decide)
      (by decide) (by decide) hm
    rw [Option.map_some', this.1, this.2]
    decide

/-- C9, counterexample: the accepted line `x<y:Bob <e> (@h)` reads as the name
`x`, the bracket contents `E = y:Bob <e` (no `>` in it) and the handle `H = h`,
but the parsed `Email` is `e`: the pattern takes `x<y` as target. -/
theorem email_not_bracket_contents :
    "x<y:Bob <e> (@h)".toList
        = "x".toList ++ '<' :: ("y:Bob <e".toList ++ '>' :: (" ".toList ++ '(' :: '@' ::
            ("h".toList ++ [')']))) ∧
      '>' ∉ "y:Bob <e".toList ∧
      (parseMaintainer "x<y:Bob <e> (@h)".toList).map (·.Email) = some "e".toList ∧
      trim isBlank "y:Bob <e".toList ≠ "e".toList := by
  decide

/-! ## Binary search on a sorted list -/

/-- The loop of `sort.Search` narrows `[i, j)` down to the first index at which a
monotone predicate holds; `j - i` iterations are enough. -/
theorem searchLoop_spec (f : Nat → Bool) (n : Nat)
    (hmono : ∀ a b, a ≤ b → b < n → f a = true → f b = true) :
    ∀ (fuel i j : Nat), i ≤ j → j ≤ n → j - i ≤ fuel →
      (∀ k, k < i → f k = false) → (∀ k, j ≤ k → k < n → f k = true) →
      searchLoop f fuel i j ≤ n ∧ (∀ k, k < searchLoop f fuel i j → f k = false) ∧
        (∀ k, searchLoop f fuel i j ≤ k → k < n → f k = true) := by
  intro fuel
  induction fuel with
  | zero =>
    intro i j hij hjn hfuel hlo hhi
    have : i = j := by omega
    subst this
    exact ⟨hjn, hlo, hhi⟩
  | succ fuel ih =>
    intro i j hij hjn hfuel hlo hhi
    rw [searchLoop]
    by_cases hlt : i < j
    · rw [if_pos hlt]
      have hh1 : i ≤ (i + j) / 2 := by omega
      have hh2 : (i + j) / 2 < j := by omega
      cases hf : f ((i + j) / 2) with
      | false =>
        simp only [hf, Bool.not_false, if_true]
        apply ih _ _ (by omega) hjn (by omega) _ hhi
        intro k hk
        cases hfk : f k with
        | false => rfl
        | true =>
          have := hmono k ((i + j) / 2) (by omega) (by omega) hfk
          rw [hf] at this
          exact Bool.noConfusion this
      | true =>
        simp only [hf, Bool.not_true, Bool.false_eq_true, if_false]
        apply ih _ _ hh1 (by omega) (by omega) hlo
        intro k hk hkn
        exact hmono _ k hk hkn hf
    · rw [if_neg hlt]
      have : i = j := by omega
      subst this
      exact ⟨hjn, hlo, hhi⟩

theorem sorted_getD_le (a : List Str) (hs : a.Sorted (· ≤ ·)) (i j : Nat) (hij : i ≤ j)
    (hj : j < a.length) : a.getD i [] ≤ a.getD j [] := by
  have hi : i < a.length := by omega
  have := hs.rel_get_of_le (a := ⟨i, hi⟩) (b := ⟨j, hj⟩) hij
  simpa [List.getD_eq_getElem?_getD, List.getElem?_eq_getElem hi, List.getElem?_eq_getElem hj]
    using this

/-- On a sorted list the binary-search test is membership. -/
theorem foundSorted_iff (a : List Str) (hs : a.Sorted (· ≤ ·)) (x : Str) :
    foundSorted a x = true ↔ x ∈ a := by
  have hmono : ∀ i j, i ≤ j → j < a.length →
      (fun h => decide (x ≤ a.getD h [])) i = true →
      (fun h => decide (x ≤ a.getD h [])) j = true := by
    intro i j hij hj hi
    simp only [decide_eq_true_eq] at hi ⊢
    exact le_trans hi (sorted_getD_le a hs i j hij hj)
  obtain ⟨hle, hlo, hhi⟩ := searchLoop_spec _ a.length hmono a.length 0 a.length
    (Nat.zero_le _) (Nat.le_refl _) (by omega) (by intro k hk; omega) (by intro k hk hkn; omega)
  unfold foundSorted
  simp only [Bool.and_eq_true, decide_eq_true_eq]
  change (searchStrings a x < a.length ∧ a.getD (searchStrings a x) [] = x) ↔ x ∈ a
  have hlo' : ∀ k, k < searchStrings a x → ¬ x ≤ a.getD k [] := by
    intro k hk
    have := hlo k hk
    simpa using this
  have hhi' : ∀ k, searchStrings a x ≤ k → k < a.length → x ≤ a.getD k [] := by
    intro k hk hkn
    have := hhi k hk hkn
    simpa using this
  constructor
  · rintro ⟨hlt, heq⟩
    rw [← heq, List.getD_eq_getElem?_getD, List.getElem?_eq_getElem hlt]
    exact List.getElem_mem _
  · intro hx
    obtain ⟨m, hm, hxm⟩ := List.getElem_of_mem hx
    have hgm : a.getD m [] = x := by
      rw [List.getD_eq_getElem?_getD, List.getElem?_eq_getElem hm]; exact hxm
    have hrm : searchStrings a x ≤ m := by
      by_contra hcon
      exact hlo' m (by omega) (by rw [hgm])
    have hlt : searchStrings a x < a.length := by omega
    exact ⟨hlt, le_antisymm ((sorted_getD_le a hs _ m hrm hm).trans (le_of_eq hgm))
      (hhi' _ (Nat.le_refl _) hlt)⟩

theorem sortStrings_sorted (l : List Str) : (sortStrings l).Sorted (· ≤ ·) :=
  List.sorted_insertionSort (· ≤ ·) l

theorem mem_sortStrings (l : List Str) (x : Str) : x ∈ sortStrings l ↔ x ∈ l :=
  List.mem_insertionSort (· ≤ ·)

/-! ## `getMaintainerManagersIds` and the first loop on well-formed files -/

theorem wellFormedLine_parse {line : Str} (h : wellFormedLine line = true) :
    ∃ m, parseMaintainer line = some m ∧ ¬ (m.Username = [] ∧ m.Email = []) := by
  unfold wellFormedLine at h
  cases hp : parseMaintainer line with
  | none => rw [hp] at h; exact Bool.noConfusion h
  | some m =>
    rw [hp] at h
    refine ⟨m, rfl, ?_⟩
    rintro ⟨hu, he⟩
    simp [hu, he] at h

theorem mem_ids_step (acc : List Str) (E U x : Str) :
    x ∈ (if U ≠ [] then (if E ≠ [] then acc ++ [E] else acc) ++ [U]
        else (if E ≠ [] then acc ++ [E] else acc)) ↔
      x ∈ acc ∨ (E ≠ [] ∧ E = x) ∨ (U ≠ [] ∧ U = x) := by
  by_cases he : E = [] <;> by_cases hu : U = []
  · subst he; subst hu; simp
  · subst he
    rw [if_pos hu, if_neg (by simp)]
    simp only [List.mem_append, List.mem_singleton]
    constructor
    · rintro (h | h)
      · exact Or.inl h
      · exact Or.inr (Or.inr ⟨hu, h.symm⟩)
    · rintro (h | ⟨h, -⟩ | ⟨-, h⟩)
      · exact Or.inl h
      · exact absurd rfl h
      · exact Or.inr h.symm
  · subst hu
    rw [if_neg (by simp), if_pos he]
    simp only [List.mem_append, List.mem_singleton]
    constructor
    · rintro (h | h)
      · exact Or.inl h
      · exact Or.inr (Or.inl ⟨he, h.symm⟩)
    · rintro (h | ⟨-, h⟩ | ⟨h, -⟩)
      · exact Or.inl h
      · exact Or.inr h.symm
      · exact absurd rfl h
  · rw [if_pos hu, if_pos he]
    simp only [List.mem_append, List.mem_singleton]
    constructor
    · rintro ((h | h) | h)
      · exact Or.inl h
      · exact Or.inr (Or.inl ⟨he, h.symm⟩)
      · exact Or.inr (Or.inr ⟨hu, h.symm⟩)
    · rintro (h | ⟨-, h⟩ | ⟨-, h⟩)
      · exact Or.inl (Or.inl h)
      · exact Or.inl (Or.inr h.symm)
      · exact Or.inr h.symm

theorem idsLoop_ok (lines : List Str) :
    ∀ acc : List Str, (∀ line ∈ lines, wellFormedLine line = true) →
      ∃ ids, idsLoop lines acc = .ok ids ∧
        ∀ x, x ∈ ids ↔ x ∈ acc ∨ ∃ line ∈ lines, lineDeclares line x = true := by
  induction lines with
  | nil => intro acc _; exact ⟨acc, rfl, by simp⟩
  | cons line rest ih =>
    intro acc hwf
    obtain ⟨m, hp, hne⟩ := wellFormedLine_parse (hwf line (List.mem_cons_self _ _))
    have hrest : ∀ l ∈ rest, wellFormedLine l = true :=
      fun l hl => hwf l (List.mem_cons_of_mem _ hl)
    obtain ⟨ids, hids, hmem⟩ := ih
      (if m.Username ≠ [] then (if m.Email ≠ [] then acc ++ [m.Email] else acc) ++ [m.Username]
        else (if m.Email ≠ [] then acc ++ [m.Email] else acc)) hrest
    refine ⟨ids, ?_, ?_⟩
    · rw [idsLoop, hp]
      simp only [if_neg hne]
      exact hids
    · intro x
      rw [hmem]
      have hdecl : lineDeclares line x = true ↔
          (m.Email ≠ [] ∧ m.Email = x) ∨ (m.Username ≠ [] ∧ m.Username = x) := by
        simp [lineDeclares, hp]
      simp only [List.mem_cons, exists_eq_or_imp, hdecl, mem_ids_step]
      constructor
      · rintro ((h | h) | h)
        · exact Or.inl h
        · exact Or.inr (Or.inl h)
        · exact Or.inr (Or.inr h)
      · rintro (h | h | h)
        · exact Or.inl (Or.inl h)
        · exact Or.inl (Or.inr h)
        · exact Or.inr h

/-- On a well-formed file `getMaintainerManagersIds` returns, sorted, exactly the
non-empty emails and handles of its lines. -/
theorem getMaintainerManagersIds_ok (lines : List Str)
    (hwf : ∀ line ∈ lines, wellFormedLine line = true) :
    ∃ ids, getMaintainerManagersIds lines = .ok ids ∧ ids.Sorted (· ≤ ·) ∧
      ∀ x, x ∈ ids ↔ ∃ line ∈ lines, lineDeclares line x = true := by
  obtain ⟨ids, hids, hmem⟩ := idsLoop_ok lines [] hwf
  refine ⟨sortStrings ids, ?_, sortStrings_sorted ids, ?_⟩
  · rw [getMaintainerManagersIds, hids]
  · intro x
    rw [mem_sortStrings, hmem]
    simp

theorem scanNames_ok (maintainerEmail userName : Str) (names : List Entry) :
    ∀ (found iAm : Bool), declsOk names = true →
      scanNames maintainerEmail userName names (found, iAm)
        = .ok (found || hasDeclFile names, iAm || listsUser names maintainerEmail userName) := by
  induction names with
  | nil => intro found iAm _; simp [scanNames, hasDeclFile, listsUser]
  | cons e es ih =>
    intro found iAm hok
    have hes : declsOk es = true := by
      simp only [declsOk, List.all_cons, Bool.and_eq_true] at hok ⊢
      exact hok.2
    by_cases hd : e.isDecl = true
    · have hlines : ∀ line ∈ e.scanLines, wellFormedLine line = true := by
        simp only [declsOk, List.all_cons, Bool.and_eq_true, hd, Bool.not_true, Bool.false_or,
          List.all_eq_true] at hok
        exact hok.1
      obtain ⟨ids, hids, hsorted, hmem⟩ := getMaintainerManagersIds_ok e.scanLines hlines
      have hd' : equalFold e.name MaintainerManagersFileName = true := hd
      have hE := foundSorted_iff ids hsorted maintainerEmail
      have hU := foundSorted_iff ids hsorted userName
      have hany : (e.scanLines.any fun line =>
          lineDeclares line maintainerEmail || lineDeclares line userName) = true ↔
          (maintainerEmail ∈ ids ∨ userName ∈ ids) := by
        rw [hmem, hmem]
        simp only [List.any_eq_true, Bool.or_eq_true]
        constructor
        · rintro ⟨l, hl, h | h⟩
          · exact Or.inl ⟨l, hl, h⟩
          · exact Or.inr ⟨l, hl, h⟩
        · rintro (⟨l, hl, h⟩ | ⟨l, hl, h⟩)
          · exact ⟨l, hl, Or.inl h⟩
          · exact ⟨l, hl, Or.inr h⟩
      have hhas : hasDeclFile (e :: es) = true := by simp [hasDeclFile, hd]
      have hlist : listsUser (e :: es) maintainerEmail userName =
          ((e.scanLines.any fun line =>
            lineDeclares line maintainerEmail || lineDeclares line userName) ||
            listsUser es maintainerEmail userName) := by
        simp [listsUser, hd]
      rw [scanNames, if_pos hd', hids, hhas, hlist]
      simp only [Bool.or_true]
      by_cases h1 : foundSorted ids maintainerEmail = true
      · rw [if_pos h1, ih _ _ hes]
        have : (e.scanLines.any fun line =>
            lineDeclares line maintainerEmail || lineDeclares line userName) = true :=
          hany.2 (Or.inl (hE.1 h1))
        simp [this]
      · rw [if_neg h1]
        by_cases h2 : foundSorted ids userName = true
        · rw [if_pos h2, ih _ _ hes]
          have : (e.scanLines.any fun line =>
              lineDeclares line maintainerEmail || lineDeclares line userName) = true :=
            hany.2 (Or.inr (hU.1 h2))
          simp [this]
        · rw [if_neg h2, ih _ _ hes]
          have : (e.scanLines.any fun line =>
              lineDeclares line maintainerEmail || lineDeclares line userName) = false := by
            cases hc : (e.scanLines.any fun line =>
              lineDeclares line maintainerEmail || lineDeclares line userName) with
            | false => rfl
            | true =>
              rcases hany.1 hc with h | h
              · exact absurd (hE.2 h) h1
              · exact absurd (hU.2 h) h2
          simp [this]
    · have hd' : ¬ equalFold e.name MaintainerManagersFileName = true := hd
      have hhas : hasDeclFile (e :: es) = hasDeclFile es := by simp [hasDeclFile, hd]
      have hlist : listsUser (e :: es) maintainerEmail userName
          = listsUser es maintainerEmail userName := by
        simp [listsUser, hd]
      rw [scanNames, if_neg hd', ih _ _ hes, hhas, hlist]

/-! ## The walk on well-formed trees -/

/-- Induction over trees: a property of entries and a property of entry lists. -/
theorem Entry.induct (P : Entry → Prop) (Q : List Entry → Prop)
    (hfile : ∀ n ls, P (.file n ls)) (hdir : ∀ n l es, Q es → P (.dir n l es))
    (hnil : Q []) (hcons : ∀ e es, P e → Q es → Q (e :: es)) : ∀ e, P e :=
  fun e => @Entry.rec P Q hfile hdir hnil hcons e

theorem hidden_false_iff (n : Str) : hidden n = false ↔ n.head? ≠ some '.' := by
  simp [hidden]

theorem GoodNames.clean {pre : List Str} (h : GoodNames pre) : CleanSegs pre := by
  refine ⟨0, pre, by simp, ?_⟩
  intro x hx
  obtain ⟨h1, h2, h3⟩ := h x hx
  rw [hidden_false_iff] at h2
  refine ⟨h1, ?_, ?_, h3⟩
  · intro e; rw [e] at h2; exact h2 rfl
  · intro e; rw [e] at h2; exact h2 rfl

theorem GoodNames.snoc {pre : List Str} {n : Str} (h : GoodNames pre) (h1 : n ≠ [])
    (h2 : hidden n = false) (h3 : '/' ∉ n) : GoodNames (pre ++ [n]) := by
  intro x hx
  rcases List.mem_append.1 hx with hx | hx
  · exact h x hx
  · rw [List.mem_singleton.1 hx]; exact ⟨h1, h2, h3⟩

theorem pathJoin_relOf {pre : List Str} {n : Str} (h : GoodNames (pre ++ [n])) :
    pathJoin (relOf pre) n = relOf (pre ++ [n]) := by
  have := pathJoin_snoc h.clean
  simpa [relOf] using this

theorem relOf_eq_nil_iff {pre : List Str} (h : GoodNames pre) : relOf pre = [] ↔ pre = [] := by
  constructor
  · intro he
    by_contra hne
    rw [relOf, if_neg hne] at he
    exact h.clean.intercalate_ne_nil hne he
  · intro he; simp [relOf, he]

theorem tmpcpth_eq {pre : List Str} (h : GoodNames pre) :
    (if relOf pre = [] then ['.'] else relOf pre) = relPath pre := by
  by_cases hp : pre = []
  · simp [relOf, relPath, hp]
  · rw [if_neg (fun he => hp ((relOf_eq_nil_iff h).1 he))]
    simp [relOf, relPath, hp]

theorem lookupDir_mem (es : List Entry) (n : Str) (sub : List Entry)
    (h : lookupDir es n = some sub) : n ∈ dirNames es := by
  induction es with
  | nil => simp [lookupDir] at h
  | cons e es ih =>
    cases e with
    | file m ls => exact ih (by simpa [lookupDir] using h)
    | dir m l sub' =>
      by_cases hm : m = n
      · simp [dirNames, hm]
      · rw [lookupDir, if_neg hm] at h
        exact List.mem_cons_of_mem _ (ih h)

theorem dirNamesOk_valid {es : List Entry} (h : dirNamesOk es = true) :
    ∀ n ∈ dirNames es, n ≠ [] ∧ '/' ∉ n := by
  intro n hn
  simp only [dirNamesOk, Bool.and_eq_true, List.all_eq_true, decide_eq_true_eq] at h
  have := h.2 n hn
  simpa using this

theorem dirNamesOk_file {m : Str} {ls : List Str} {es : List Entry}
    (h : dirNamesOk (.file m ls :: es) = true) : dirNamesOk es = true := h

theorem dirNamesOk_dir {m : Str} {l : Bool} {sub es : List Entry}
    (h : dirNamesOk (.dir m l sub :: es) = true) :
    dirNamesOk es = true ∧ m ∉ dirNames es ∧ m ≠ [] ∧ '/' ∉ m := by
  have hv := dirNamesOk_valid h m (by simp [dirNames])
  simp only [dirNamesOk, dirNames, Bool.and_eq_true, decide_eq_true_eq, List.nodup_cons,
    List.all_cons] at h ⊢
  exact ⟨⟨h.1.2, h.2.2⟩, h.1.1, hv⟩

theorem walkOk_dir (maintainerEmail userName : Str) (nm : Str) (l : Bool) (es : List Entry)
    (ihQ : WalkNamesOk maintainerEmail userName es) :
    WalkOk maintainerEmail userName (.dir nm l es) := by
  intro pre b acc hwf _ hpre
  have hwf' : ((l = true ∧ declsOk es = true) ∧ dirNamesOk es = true) ∧
      wellFormedAll es = true := by
    simpa [Entry.wellFormed] using hwf
  obtain ⟨⟨⟨hl, hdecl⟩, hnames⟩, hall⟩ := hwf'
  subst hl
  have hscan := scanNames_ok maintainerEmail userName es false false hdecl
  simp only [Bool.false_or] at hscan
  have hrun : createMaintainerManagerDirectoriesMap (.dir nm true es) (relOf pre)
      maintainerEmail userName b acc
      = (.ok (), (walkNames es (relOf pre) maintainerEmail userName
          (!ownedHere es maintainerEmail userName b)
          (if ownedHere es maintainerEmail userName b then acc ++ [relPath pre] else acc)).2) := by
    rw [createMaintainerManagerDirectoriesMap]
    simp only [Bool.not_true, Bool.false_eq_true, if_false, hscan, tmpcpth_eq hpre]
    by_cases hown : ownedHere es maintainerEmail userName b = true
    · have hcond : ((!hasDeclFile es && !b) || listsUser es maintainerEmail userName) = true :=
        hown
      obtain ⟨h1, -⟩ := ihQ pre false (acc ++ [relPath pre]) hall hnames hpre
      have hw : walkNames es (relOf pre) maintainerEmail userName false (acc ++ [relPath pre])
          = (false, (walkNames es (relOf pre) maintainerEmail userName false
              (acc ++ [relPath pre])).2) := Prod.ext h1 rfl
      rw [if_pos hcond, hw]
      simp [hown]
    · have hcond : ¬ ((!hasDeclFile es && !b) || listsUser es maintainerEmail userName) = true :=
        hown
      have hcond2 : (hasDeclFile es || b) = true := by
        cases hf : hasDeclFile es <;> cases hb : b <;> simp [hf, hb] at hcond ⊢
      obtain ⟨h1, -⟩ := ihQ pre true acc hall hnames hpre
      have hw : walkNames es (relOf pre) maintainerEmail userName true acc
          = (false, (walkNames es (relOf pre) maintainerEmail userName true acc).2) :=
        Prod.ext h1 rfl
      rw [if_neg hcond, if_pos hcond2, hw]
      simp [hown]
  rw [hrun]
  refine ⟨rfl, ?_⟩
  intro p
  obtain ⟨-, h2⟩ := ihQ pre (!ownedHere es maintainerEmail userName b)
    (if ownedHere es maintainerEmail userName b then acc ++ [relPath pre] else acc)
    hall hnames hpre
  rw [h2 p]
  show _ ↔ p ∈ acc ∨ ∃ ns, ownedAt maintainerEmail userName es b ns = true ∧ p = relPath (pre ++ ns)
  constructor
  · rintro (h | ⟨n, ns, sub, hn, hlook, hown, hp⟩)
    · by_cases hown : ownedHere es maintainerEmail userName b = true
      · rw [if_pos hown] at h
        rcases List.mem_append.1 h with h | h
        · exact Or.inl h
        · exact Or.inr ⟨[], by simpa [ownedAt] using hown, by simpa using h⟩
      · rw [if_neg hown] at h
        exact Or.inl h
    · exact Or.inr ⟨n :: ns, by simp [ownedAt, hn, hlook, hown], hp⟩
  · rintro (h | ⟨ns, hown, hp⟩)
    · left
      by_cases hown : ownedHere es maintainerEmail userName b = true
      · rw [if_pos hown]; exact List.mem_append_left _ h
      · rw [if_neg hown]; exact h
    · cases ns with
      | nil =>
        left
        have hown' : ownedHere es maintainerEmail userName b = true := by
          simpa [ownedAt] using hown
        rw [if_pos hown', hp]
        simp
      | cons n ns =>
        right
        rw [ownedAt] at hown
        by_cases hn : hidden n = true
        · rw [if_pos hn] at hown; exact Bool.noConfusion hown
        · rw [if_neg hn] at hown
          cases hlook : lookupDir es n with
          | none => rw [hlook] at hown; exact Bool.noConfusion hown
          | some sub =>
            rw [hlook] at hown
            exact ⟨n, ns, sub, by simpa using hn, hlook, hown, hp⟩

theorem walkNamesOk_nil (maintainerEmail userName : Str) :
    WalkNamesOk maintainerEmail userName [] := by
  intro pre b acc _ _ _
  refine ⟨rfl, fun p => ?_⟩
  simp [walkNames, lookupDir]

theorem walkNamesOk_cons (maintainerEmail userName : Str) (e : Entry) (es : List Entry)
    (ihP : WalkOk maintainerEmail userName e) (ihQ : WalkNamesOk maintainerEmail userName es) :
    WalkNamesOk maintainerEmail userName (e :: es) := by
  intro pre b acc hall hnames hpre
  cases e with
  | file m ls =>
    have hall' : wellFormedAll es = true := by
      simpa [wellFormedAll, Entry.wellFormed] using hall
    have hw : walkNames (.file m ls :: es) (relOf pre) maintainerEmail userName b acc
        = walkNames es (relOf pre) maintainerEmail userName b acc := by
      rw [walkNames]; simp [Entry.isDir]
    rw [hw]
    exact ihQ pre b acc hall' (dirNamesOk_file hnames) hpre
  | dir m l sub =>
    obtain ⟨hn_es, hnotin, hne, hslash⟩ := dirNamesOk_dir hnames
    have hall' : (Entry.dir m l sub).wellFormed = true ∧ wellFormedAll es = true := by
      simpa [wellFormedAll] using hall
    cases m with
    | nil => exact absurd rfl hne
    | cons c cs =>
      by_cases hc : c = '.'
      · -- a hidden directory is skipped
        have hw : walkNames (.dir (c :: cs) l sub :: es) (relOf pre) maintainerEmail userName b acc
            = walkNames es (relOf pre) maintainerEmail userName b acc := by
          rw [walkNames]; simp [Entry.isDir, Entry.name, hc]
        rw [hw]
        obtain ⟨h1, h2⟩ := ihQ pre b acc hall'.2 hn_es hpre
        refine ⟨h1, fun p => ?_⟩
        rw [h2 p]
        have hlook : ∀ n, hidden n = false →
            lookupDir (.dir (c :: cs) l sub :: es) n = lookupDir es n := by
          intro n hn
          rw [lookupDir, if_neg]
          intro e
          rw [← e, hc] at hn
          simp [hidden] at hn
        constructor
        · rintro (h | ⟨n, ns, s', hn, hl, ho, hp⟩)
          · exact Or.inl h
          · exact Or.inr ⟨n, ns, s', hn, by rw [hlook n hn]; exact hl, ho, hp⟩
        · rintro (h | ⟨n, ns, s', hn, hl, ho, hp⟩)
          · exact Or.inl h
          · exact Or.inr ⟨n, ns, s', hn, by rw [← hlook n hn]; exact hl, ho, hp⟩
      · -- a visible directory is walked, then the rest
        have hhid : hidden (c :: cs) = false := by simp [hidden, hc]
        have hgood : GoodNames (pre ++ [c :: cs]) := hpre.snoc hne hhid hslash
        obtain ⟨g1, g2⟩ := ihP (pre ++ [c :: cs]) b acc hall'.1 rfl hgood
        have hjoin : pathJoin (relOf pre) (c :: cs) = relOf (pre ++ [c :: cs]) :=
          pathJoin_relOf hgood
        have hr : createMaintainerManagerDirectoriesMap (.dir (c :: cs) l sub)
            (relOf (pre ++ [c :: cs])) maintainerEmail userName b acc
            = (.ok (), (createMaintainerManagerDirectoriesMap (.dir (c :: cs) l sub)
                (relOf (pre ++ [c :: cs])) maintainerEmail userName b acc).2) :=
          Prod.ext g1 rfl
        have hw : walkNames (.dir (c :: cs) l sub :: es) (relOf pre) maintainerEmail userName b acc
            = walkNames es (relOf pre) maintainerEmail userName b
                (createMaintainerManagerDirectoriesMap (.dir (c :: cs) l sub)
                  (relOf (pre ++ [c :: cs])) maintainerEmail userName b acc).2 := by
          rw [walkNames]
          simp only [Entry.isDir, Entry.name, if_true, ne_eq, hc, not_false_eq_true, hjoin]
          rw [hr]
        rw [hw]
        obtain ⟨h1, h2⟩ := ihQ pre b
          (createMaintainerManagerDirectoriesMap (.dir (c :: cs) l sub)
            (relOf (pre ++ [c :: cs])) maintainerEmail userName b acc).2 hall'.2 hn_es hpre
        refine ⟨h1, fun p => ?_⟩
        rw [h2 p, g2 p]
        show _ ↔ p ∈ acc ∨ ∃ n ns s', hidden n = false ∧
          lookupDir (.dir (c :: cs) l sub :: es) n = some s' ∧
          ownedAt maintainerEmail userName s' b ns = true ∧ p = relPath (pre ++ n :: ns)
        constructor
        · rintro ((h | ⟨ns, ho, hp⟩) | ⟨n, ns, s', hn, hl, ho, hp⟩)
          · exact Or.inl h
          · refine Or.inr ⟨c :: cs, ns, sub, hhid, by simp [lookupDir], ho, ?_⟩
            rw [hp]; simp
          · refine Or.inr ⟨n, ns, s', hn, ?_, ho, hp⟩
            rw [lookupDir, if_neg]
            · exact hl
            · intro e
              exact hnotin (e ▸ lookupDir_mem es n s' hl)
        · rintro (h | ⟨n, ns, s', hn, hl, ho, hp⟩)
          · exact Or.inl (Or.inl h)
          · by_cases e : (c :: cs) = n
            · rw [lookupDir, if_pos e] at hl
              have hs : sub = s' := Option.some.inj hl
              refine Or.inl (Or.inr ⟨ns, by rw [hs]; exact ho, ?_⟩)
              rw [hp, ← e]; simp
            · rw [lookupDir, if_neg e] at hl
              exact Or.inr ⟨n, ns, s', hn, hl, ho, hp⟩

/-- The walk on every well-formed directory. -/
theorem walkOk (maintainerEmail userName : Str) : ∀ e, WalkOk maintainerEmail userName e :=
  Entry.induct (WalkOk maintainerEmail userName) (WalkNamesOk maintainerEmail userName)
    (fun n ls pre b acc _ hdir _ => by simp [Entry.isDir] at hdir)
    (fun n l es ih => walkOk_dir maintainerEmail userName n l es ih)
    (walkNamesOk_nil maintainerEmail userName)
    (fun e es ihP ihQ => walkNamesOk_cons maintainerEmail userName e es ihP ihQ)

/-! ## Directories of a well-formed tree and their relative paths -/

theorem relPath_injective {a b : List Str} (ha : GoodNames a) (hb : GoodNames b)
    (h : relPath a = relPath b) : a = b := by
  unfold relPath at h
  by_cases hae : a = [] <;> by_cases hbe : b = []
  · rw [hae, hbe]
  · rw [if_pos hae, if_neg hbe] at h
    exact absurd h.symm (hb.clean.intercalate_ne_dot hbe)
  · rw [if_neg hae, if_pos hbe] at h
    exact absurd h (ha.clean.intercalate_ne_dot hae)
  · rw [if_neg hae, if_neg hbe] at h
    have h1 := List.splitOn_intercalate a '/' ha.clean.no_slash hae
    have h2 := List.splitOn_intercalate b '/' hb.clean.no_slash hbe
    rw [← h1, ← h2, h]

theorem Entry.wellFormed_dirOk {e : Entry} (h : e.wellFormed = true) (hd : e.isDir = true) :
    DirOk e.entries := by
  cases e with
  | file n ls => simp [Entry.isDir] at hd
  | dir n l es =>
    have : ((l = true ∧ declsOk es = true) ∧ dirNamesOk es = true) ∧
        wellFormedAll es = true := by
      simpa [Entry.wellFormed] using h
    exact ⟨this.1.1.2, this.1.2, this.2⟩

theorem lookupDir_wellFormed (es : List Entry) (n : Str) (sub : List Entry)
    (hall : wellFormedAll es = true) (h : lookupDir es n = some sub) : DirOk sub := by
  induction es with
  | nil => simp [lookupDir] at h
  | cons e es ih =>
    have hall' : e.wellFormed = true ∧ wellFormedAll es = true := by
      simpa [wellFormedAll] using hall
    cases e with
    | file m ls => exact ih hall'.2 (by simpa [lookupDir] using h)
    | dir m l sub' =>
      by_cases hm : m = n
      · rw [lookupDir, if_pos hm] at h
        have hs : sub' = sub := Option.some.inj h
        rw [← hs]
        exact Entry.wellFormed_dirOk hall'.1 rfl
      · rw [lookupDir, if_neg hm] at h
        exact ih hall'.2 h

theorem reach_good (ns : List Str) :
    ∀ (names sub : List Entry), DirOk names → reach names ns = some sub →
      GoodNames ns ∧ DirOk sub := by
  induction ns with
  | nil =>
    intro names sub hok h
    have : names = sub := by simpa [reach] using h
    rw [← this]
    exact ⟨fun x hx => absurd hx (List.not_mem_nil _), hok⟩
  | cons n ns ih =>
    intro names sub hok h
    rw [reach] at h
    by_cases hn : hidden n = true
    · rw [if_pos hn] at h; exact Option.noConfusion h
    · rw [if_neg hn] at h
      cases hl : lookupDir names n with
      | none => rw [hl] at h; exact Option.noConfusion h
      | some s1 =>
        rw [hl] at h
        obtain ⟨hg, hsub⟩ := ih s1 sub (lookupDir_wellFormed names n s1 hok.2.2 hl) h
        refine ⟨?_, hsub⟩
        have hv := dirNamesOk_valid hok.2.1 n (lookupDir_mem names n s1 hl)
        intro x hx
        rcases List.mem_cons.1 hx with rfl | hx
        · exact ⟨hv.1, by simpa using hn, hv.2⟩
        · exact hg x hx

theorem ownedAt_reach (maintainerEmail userName : Str) (ns : List Str) :
    ∀ (names : List Entry) (b : Bool), ownedAt maintainerEmail userName names b ns = true →
      ∃ sub, reach names ns = some sub := by
  induction ns with
  | nil => intro names b _; exact ⟨names, rfl⟩
  | cons n ns ih =>
    intro names b h
    rw [ownedAt] at h
    rw [reach]
    by_cases hn : hidden n = true
    · rw [if_pos hn] at h; exact Bool.noConfusion h
    · rw [if_neg hn] at h ⊢
      cases hl : lookupDir names n with
      | none => rw [hl] at h; exact Bool.noConfusion h
      | some s1 =>
        rw [hl] at h
        exact ih s1 _ h

theorem listsUser_false_of_no_decl (names : List Entry) (maintainerEmail userName : Str)
    (h : hasDeclFile names = false) : listsUser names maintainerEmail userName = false := by
  simp only [hasDeclFile, List.any_eq_false] at h
  simp only [listsUser, List.any_eq_false, Bool.and_eq_true, not_and]
  intro e he hd
  exact absurd hd (h e he)

/-- A directory with a declaration file: the decision does not depend on the
inherited flag. -/
theorem ownedAt_declared (maintainerEmail userName : Str) (ns : List Str) :
    ∀ (names sub : List Entry) (b : Bool), reach names ns = some sub →
      hasDeclFile sub = true →
      ownedAt maintainerEmail userName names b ns = listsUser sub maintainerEmail userName := by
  induction ns with
  | nil =>
    intro names sub b h hd
    have : names = sub := by simpa [reach] using h
    subst this
    simp [ownedAt, ownedHere, hd]
  | cons n ns ih =>
    intro names sub b h hd
    rw [reach] at h
    rw [ownedAt]
    by_cases hn : hidden n = true
    · rw [if_pos hn] at h; exact Option.noConfusion h
    · rw [if_neg hn] at h ⊢
      cases hl : lookupDir names n with
      | none => rw [hl] at h; exact Option.noConfusion h
      | some s1 =>
        rw [hl] at h
        exact ih s1 sub _ h hd

/-- A directory without a declaration file: the decision is that of the nearest
ancestor with a declaration file, and the inherited flag when there is none. -/
theorem ownedAt_undeclared (maintainerEmail userName : Str) (ns : List Str) :
    ∀ (names sub : List Entry) (b : Bool), reach names ns = some sub →
      hasDeclFile sub = false →
      ownedAt maintainerEmail userName names b ns =
        match nearestDecl names ns with
        | some anc => listsUser anc maintainerEmail userName
        | none => !b := by
  induction ns with
  | nil =>
    intro names sub b h hd
    have : names = sub := by simpa [reach] using h
    subst this
    simp [ownedAt, ownedHere, hd, nearestDecl, listsUser_false_of_no_decl]
  | cons n ns ih =>
    intro names sub b h hd
    rw [reach] at h
    rw [ownedAt, nearestDecl]
    by_cases hn : hidden n = true
    · rw [if_pos hn] at h; exact Option.noConfusion h
    · rw [if_neg hn] at h ⊢
      cases hl : lookupDir names n with
      | none => rw [hl] at h; exact Option.noConfusion h
      | some s1 =>
        rw [hl] at h
        simp only []
        rw [ih s1 sub _ h hd]
        cases hnd : nearestDecl s1 ns with
        | some a => rfl
        | none =>
          simp only [Bool.not_not]
          by_cases hdn : hasDeclFile names = true
          · simp [ownedHere, hdn]
          · have hdn' : hasDeclFile names = false := by simpa using hdn
            simp [ownedHere, hdn', listsUser_false_of_no_decl]

theorem reach_snoc (pre : List Str) (n : Str) :
    ∀ (names sub : List Entry), reach names (pre ++ [n]) = some sub →
      ∃ par, reach names pre = some par ∧ hidden n = false ∧ lookupDir par n = some sub := by
  induction pre with
  | nil =>
    intro names sub h
    rw [List.nil_append, reach] at h
    by_cases hn : hidden n = true
    · rw [if_pos hn] at h; exact Option.noConfusion h
    · rw [if_neg hn] at h
      cases hl : lookupDir names n with
      | none => rw [hl] at h; exact Option.noConfusion h
      | some s1 =>
        rw [hl] at h
        have : s1 = sub := by simpa [reach] using h
        exact ⟨names, rfl, by simpa using hn, by rw [hl, this]⟩
  | cons m pre ih =>
    intro names sub h
    rw [List.cons_append, reach] at h
    rw [reach]
    by_cases hm : hidden m = true
    · rw [if_pos hm] at h; exact Option.noConfusion h
    · rw [if_neg hm] at h ⊢
      cases hl : lookupDir names m with
      | none => rw [hl] at h; exact Option.noConfusion h
      | some s1 =>
        rw [hl] at h
        exact ih s1 sub h

theorem ownedAt_snoc (maintainerEmail userName : Str) (pre : List Str) (n : Str) :
    ∀ (names par sub : List Entry) (b : Bool), reach names pre = some par →
      hidden n = false → lookupDir par n = some sub → hasDeclFile sub = false →
      ownedAt maintainerEmail userName names b (pre ++ [n])
        = ownedAt maintainerEmail userName names b pre := by
  induction pre with
  | nil =>
    intro names par sub b h hn hl hd
    have : names = par := by simpa [reach] using h
    subst this
    simp [ownedAt, hn, hl, ownedHere, hd, listsUser_false_of_no_decl]
  | cons m pre ih =>
    intro names par sub b h hn hl hd
    rw [reach] at h
    rw [List.cons_append, ownedAt, ownedAt]
    by_cases hm : hidden m = true
    · rw [if_pos hm] at h; exact Option.noConfusion h
    · simp only [if_neg hm] at h ⊢
      cases hlm : lookupDir names m with
      | none => simp [hlm] at h
      | some s1 =>
        rw [hlm] at h
        exact ih s1 par sub _ h hn hl hd

/-- On a well-formed tree the walk returns no error, and the relative path of a
directory reached through visible names is in the list exactly when the
decision for that directory is "recorded". -/
theorem recorded_iff_ownedAt (root : Entry) (ns : List Str) (sub : List Entry)
    (maintainerEmail userName : Str) (b : Bool)
    (hwf : root.wellFormed = true) (hdir : root.isDir = true)
    (hreach : reach root.entries ns = some sub) :
    (createMaintainerManagerDirectoriesMap root [] maintainerEmail userName b []).1 = .ok () ∧
    (relPath ns ∈ (createMaintainerManagerDirectoriesMap root [] maintainerEmail userName b []).2
      ↔ ownedAt maintainerEmail userName root.entries b ns = true) := by
  have hnil : GoodNames [] := fun x hx => absurd hx (List.not_mem_nil _)
  obtain ⟨h1, h2⟩ := walkOk maintainerEmail userName root [] b [] hwf hdir hnil
  have hrel : relOf [] = [] := rfl
  rw [hrel] at h1 h2
  refine ⟨h1, ?_⟩
  rw [h2]
  have hok := Entry.wellFormed_dirOk hwf hdir
  have hgood := (reach_good ns root.entries sub hok hreach).1
  constructor
  · rintro (h | ⟨ns', ho, hp⟩)
    · exact absurd h (List.not_mem_nil _)
    · obtain ⟨sub', hr'⟩ := ownedAt_reach maintainerEmail userName ns' _ _ ho
      have hgood' := (reach_good ns' root.entries sub' hok hr').1
      have : ns = ns' := relPath_injective hgood hgood' (by simpa using hp)
      rw [this]; exact ho
  · intro ho
    exact Or.inr ⟨ns, ho, by simp⟩

/-- C1 (amended): in a tree whose directories are all listable and whose
declaration files are all well-formed, a directory reached through visible names
that contains a declaration file has its relative path recorded if and only if
the acting email or the acting handle equals a non-empty trimmed email or a
non-empty trimmed handle of some line of a declaration file of that directory,
whatever `belongsToOthers` value the walk starts from. -/
theorem declared_directory_recorded_iff (root : Entry) (ns : List Str) (sub : List Entry)
    (maintainerEmail userName : Str) (b : Bool)
    (hwf : root.wellFormed = true) (hdir : root.isDir = true)
    (hreach : reach root.entries ns = some sub) (hdecl : hasDeclFile sub = true) :
    (createMaintainerManagerDirectoriesMap root [] maintainerEmail userName b []).1 = .ok () ∧
    (relPath ns ∈ (createMaintainerManagerDirectoriesMap root [] maintainerEmail userName b []).2
      ↔ listsUser sub maintainerEmail userName = true) := by
  obtain ⟨h1, h2⟩ := recorded_iff_ownedAt root ns sub maintainerEmail userName b hwf hdir hreach
  refine ⟨h1, ?_⟩
  rw [h2, ownedAt_declared maintainerEmail userName ns _ sub b hreach hdecl]

/-- Witness of `declared_directory_recorded_iff`: in the nested-override tree the
directory `a`, built for alice, is recorded, also when the walk starts with
`belongsToOthers` set. -/
theorem declared_directory_recorded_iff_witness :
    "a".toList ∈ (createMaintainerManagerDirectoriesMap treeNested []
      "alice@example.com".toList "alice".toList true []).2 :=
  ((declared_directory_recorded_iff treeNested ["a".toList] aEntries
    "alice@example.com".toList "alice".toList true (by decide) rfl rfl (by decide)).2).2
    (by decide)

/-- C1, counterexample: the root holds a declaration file with the line
`Alice <alice@example.com>` (or `Alice <alice@example.com> (@ )`, whose handle
is blank); the acting handle is empty (no user name configured) and so equals
the empty trimmed handle of that line, yet the build for `carol@example.com`
does not record the root. -/
theorem empty_handle_not_recorded :
    (treeNoHandle.wellFormed = true ∧ hasDeclFile treeNoHandle.entries = true ∧
      equalsUser treeNoHandle.entries carolEmail [] = true ∧
      (build treeNoHandle carolEmail [] []).1 = .ok () ∧
      relPath [] ∉ (build treeNoHandle carolEmail [] []).2) ∧
    (treeBlankHandle.wellFormed = true ∧ hasDeclFile treeBlankHandle.entries = true ∧
      (parseMaintainer "Alice <alice@example.com> (@ )".toList).map (·.Username) = some [] ∧
      equalsUser treeBlankHandle.entries carolEmail [] = true ∧
      (build treeBlankHandle carolEmail [] []).1 = .ok () ∧
      relPath [] ∉ (build treeBlankHandle carolEmail [] []).2) := by
  decide

/-- What the walk does for a directory without declaration entry, where a
declaration entry is any entry named `MAINTAINERS` ignoring case, a
sub-directory included (`hasDeclFile`, as the first loop of the source tests
it): in a well-formed tree such a directory, reached from the root through
visible names, is recorded by the build if and only if no ancestor has a
declaration entry or the nearest ancestor that has one lists the acting user; so
a root without declaration entry is always recorded, and a directory without one
below it exactly when its parent is. -/
theorem undeclared_directory_recorded_iff (root : Entry) (ns : List Str) (sub : List Entry)
    (maintainerEmail userName : Str)
    (hwf : root.wellFormed = true) (hdir : root.isDir = true)
    (hreach : reach root.entries ns = some sub) (hno : hasDeclFile sub = false) :
    (build root maintainerEmail userName []).1 = .ok () ∧
    (relPath ns ∈ (build root maintainerEmail userName []).2 ↔
      match nearestDecl root.entries ns with
      | none => True
      | some anc => listsUser anc maintainerEmail userName = true) ∧
    (ns = [] → relPath ns ∈ (build root maintainerEmail userName []).2) ∧
    (∀ pre n, ns = pre ++ [n] →
      (relPath ns ∈ (build root maintainerEmail userName []).2 ↔
        relPath pre ∈ (build root maintainerEmail userName []).2)) := by
  obtain ⟨h1, h2⟩ :=
    recorded_iff_ownedAt root ns sub maintainerEmail userName false hwf hdir hreach
  have hmain : relPath ns ∈ (build root maintainerEmail userName []).2 ↔
      match nearestDecl root.entries ns with
      | none => True
      | some anc => listsUser anc maintainerEmail userName = true := by
    unfold build
    rw [h2, ownedAt_undeclared maintainerEmail userName ns _ sub false hreach hno]
    cases nearestDecl root.entries ns with
    | none => simp
    | some anc => simp
  refine ⟨h1, hmain, ?_, ?_⟩
  · intro hns
    rw [hmain, hns]
    simp [nearestDecl]
  · intro pre n hns
    subst hns
    obtain ⟨par, hpar, hn, hl⟩ := reach_snoc pre n _ sub hreach
    obtain ⟨-, h3⟩ :=
      recorded_iff_ownedAt root pre par maintainerEmail userName false hwf hdir hpar
    unfold build
    rw [h2, h3, ownedAt_snoc maintainerEmail userName pre n _ par sub false hpar hn hl hno]

/-- Witness of `undeclared_directory_recorded_iff`: in the nested-override tree
the undeclared directory `a/x` is recorded for alice, whom `a/MAINTAINERS` lists. -/
theorem undeclared_directory_recorded_iff_witness :
    "a/x".toList ∈ (build treeNested "alice@example.com".toList "alice".toList []).2 :=
  ((undeclared_directory_recorded_iff treeNested ["a".toList, "x".toList] []
    "alice@example.com".toList "alice".toList (by decide) rfl rfl rfl).2.1).2
    (show listsUser aEntries "alice@example.com".toList "alice".toList = true by decide)

/-! ## `MergePullRequest` -/

theorem isApprovedLoop_iff (comments : List Str) :
    isApprovedLoop comments = true ↔ ∃ body ∈ comments, "LGTM".toList <:+: body := by
  induction comments with
  | nil => simp [isApprovedLoop]
  | cons body rest ih =>
    rw [isApprovedLoop]
    by_cases hb : stringsContains body "LGTM".toList = true
    · rw [if_pos hb]
      have : "LGTM".toList <:+: body := by simpa [stringsContains] using hb
      exact ⟨fun _ => ⟨body, List.mem_cons_self _ _, this⟩, fun _ => rfl⟩
    · rw [if_neg hb, ih]
      have hn : ¬ "LGTM".toList <:+: body := by simpa [stringsContains] using hb
      constructor
      · rintro ⟨b, hmem, hin⟩
        exact ⟨b, List.mem_cons_of_mem _ hmem, hin⟩
      · rintro ⟨b, hmem, hin⟩
        rcases List.mem_cons.1 hmem with rfl | hmem
        · exact absurd hin hn
        · exact ⟨b, hmem, hin⟩

/-- C15: when the comments are fetched successfully, `MergePullRequest` returns
the "has not been approved" error without invoking the remote merge if and only
if no comment body contains `LGTM` and `force` is false; otherwise it invokes
the remote merge and returns its result. -/
theorem mergePullRequest_not_approved_iff {M : Type} (number comment : Str) (force : Bool)
    (comments : List Str) (clientMerge : Str → Str → Outcome M) :
    (MergePullRequest number comment force (.ok comments) clientMerge
        = (.error (notApprovedError number), false) ↔
      (∀ body ∈ comments, ¬ "LGTM".toList <:+: body) ∧ force = false) ∧
    (¬ ((∀ body ∈ comments, ¬ "LGTM".toList <:+: body) ∧ force = false) →
      MergePullRequest number comment force (.ok comments) clientMerge
        = (clientMerge number comment, true)) := by
  have hiff : (!isApprovedLoop comments && !force) = true ↔
      (∀ body ∈ comments, ¬ "LGTM".toList <:+: body) ∧ force = false := by
    rw [Bool.and_eq_true, Bool.not_eq_true', Bool.not_eq_true']
    constructor
    · rintro ⟨h1, h2⟩
      refine ⟨fun body hb hin => ?_, h2⟩
      have := (isApprovedLoop_iff comments).2 ⟨body, hb, hin⟩
      rw [h1] at this
      exact Bool.noConfusion this
    · rintro ⟨h1, h2⟩
      refine ⟨?_, h2⟩
      cases hc : isApprovedLoop comments with
      | false => rfl
      | true =>
        obtain ⟨body, hb, hin⟩ := (isApprovedLoop_iff comments).1 hc
        exact absurd hin (h1 body hb)
  constructor
  · constructor
    · intro h
      by_contra hcon
      have hc : ¬ (!isApprovedLoop comments && !force) = true := fun hh => hcon (hiff.1 hh)
      simp only [MergePullRequest, if_neg hc] at h
      have := congrArg Prod.snd h
      exact Bool.noConfusion this
    · intro h
      simp only [MergePullRequest, if_pos (hiff.2 h)]
  · intro hcon
    have hc : ¬ (!isApprovedLoop comments && !force) = true := fun hh => hcon (hiff.1 hh)
    simp only [MergePullRequest, if_neg hc]

/-- Witness of `mergePullRequest_not_approved_iff`: without `LGTM` and without
`force` the merge is refused and the remote merge is not invoked; with a comment
`LGTM!` the remote merge is invoked. -/
theorem mergePullRequest_not_approved_iff_witness :
    MergePullRequest "42".toList "msg".toList false (.ok ["looks odd".toList])
        (fun _ _ => Outcome.ok ())
      = (.error "Pull request 42 has not been approved".toList, false) ∧
    MergePullRequest "42".toList "msg".toList false (.ok ["looks odd".toList, "LGTM!".toList])
        (fun _ _ => Outcome.ok ())
      = (.ok (), true) :=
  ⟨((mergePullRequest_not_approved_iff "42".toList "msg".toList false ["looks odd".toList]
      (fun _ _ => Outcome.ok ())).1).2 (by decide),
   (mergePullRequest_not_approved_iff "42".toList "msg".toList false
      ["looks odd".toList, "LGTM!".toList] (fun _ _ => Outcome.ok ())).2 (by decide)⟩

/-! ## `GetRemoteUrl` -/

/-- C18, evaluated: for the remote URL `git@github.com:user/digit.git` the last
segment without its `.git` suffix is `digit`, but `GetRemoteUrl` returns the
name `d`: `strings.TrimRight` removes every trailing character of the set
`.`, `g`, `i`, `t`.  A name without the suffix is cut as well (`gordon-git`
becomes `gordon-`). -/
theorem getRemoteUrl_digit :
    trimSuffixGit "digit.git".toList = "digit".toList ∧
      GetRemoteUrl "origin".toList
        (.ok [⟨"origin".toList, "git@github.com:user/digit.git".toList⟩])
        = .ok ("user".toList, "d".toList) ∧
      trimSuffixGit "gordon-git".toList = "gordon-git".toList ∧
      GetRemoteUrl "origin".toList
        (.ok [⟨"origin".toList, "https://github.com/user/gordon-git".toList⟩])
        = .ok ("user".toList, "gordon-".toList) := by
  decide

/-! ## The walk only appends to the global list -/

theorem walkAppends_dir (maintainerEmail userName : Str) (nm : Str) (l : Bool)
    (es : List Entry) (ihQ : WalkNamesAppends maintainerEmail userName es) :
    WalkAppends maintainerEmail userName (.dir nm l es) := by
  intro cpth b acc
  cases l with
  | false => simp [createMaintainerManagerDirectoriesMap]
  | true =>
    cases hscan : scanNames maintainerEmail userName es (false, false) with
    | error msg => simp [createMaintainerManagerDirectoriesMap, hscan]
    | crash => simp [createMaintainerManagerDirectoriesMap, hscan]
    | ok st =>
      obtain ⟨found, iAm⟩ := st
      by_cases h1 : ((!found && !b) || iAm) = true
      · have e1 := ihQ cpth false (acc ++ [if cpth = [] then ['.'] else cpth])
        have e2 := ihQ cpth false ([] ++ [if cpth = [] then ['.'] else cpth])
        simp only [createMaintainerManagerDirectoriesMap, hscan, h1, if_true, Bool.not_true,
          Bool.false_eq_true, if_false]
        rw [e1, e2]
        simp
      · by_cases h2 : (found || b) = true
        · have e1 := ihQ cpth true acc
          simp only [createMaintainerManagerDirectoriesMap, hscan, h1, h2, if_true, Bool.not_true,
            Bool.false_eq_true, if_false]
          rw [e1]
        · have e1 := ihQ cpth false acc
          simp only [createMaintainerManagerDirectoriesMap, hscan, h1, h2, if_true, Bool.not_true,
            Bool.false_eq_true, if_false]
          rw [e1]

theorem walkNamesAppends_cons (maintainerEmail userName : Str) (e : Entry) (es : List Entry)
    (ihP : WalkAppends maintainerEmail userName e)
    (ihQ : WalkNamesAppends maintainerEmail userName es) :
    WalkNamesAppends maintainerEmail userName (e :: es) := by
  intro cpth b acc
  by_cases hd : e.isDir = true
  · cases hn : e.name with
    | nil => simp [walkNames, hd, hn]
    | cons c cs =>
      by_cases hc : c = '.'
      · have e1 := ihQ cpth b acc
        simp only [walkNames, hd, hn, hc, if_true, ne_eq, not_true_eq_false, if_false]
        rw [e1]
      · have e1 := ihP (pathJoin cpth (c :: cs)) b acc
        cases hr : (createMaintainerManagerDirectoriesMap e (pathJoin cpth (c :: cs))
            maintainerEmail userName b []) with
        | mk r ps =>
          rw [hr] at e1
          have e2 := ihQ cpth b (acc ++ ps)
          have e3 := ihQ cpth b ps
          cases r with
          | crash =>
            simp only [walkNames, hd, hn, hc, if_true, ne_eq, not_false_eq_true, e1, hr]
          | ok u =>
            simp only [walkNames, hd, hn, hc, if_true, ne_eq, not_false_eq_true, e1, hr]
            rw [e2, e3]
            simp
          | error msg =>
            simp only [walkNames, hd, hn, hc, if_true, ne_eq, not_false_eq_true, e1, hr]
            rw [e2, e3]
            simp
  · have e1 := ihQ cpth b acc
    simp only [walkNames, hd, Bool.false_eq_true, if_false]
    rw [e1]

/-- Every walk only appends to the global list. -/
theorem walkAppends (maintainerEmail userName : Str) :
    ∀ e, WalkAppends maintainerEmail userName e :=
  Entry.induct (WalkAppends maintainerEmail userName) (WalkNamesAppends maintainerEmail userName)
    (fun n ls cpth b acc => by simp [createMaintainerManagerDirectoriesMap])
    (fun n l es ih => walkAppends_dir maintainerEmail userName n l es ih)
    (fun cpth b acc => by simp [walkNames])
    (fun e es ihP ihQ => walkNamesAppends_cons maintainerEmail userName e es ihP ihQ)

/-- C14: for every tree, every acting identity and every state of the global
list, a second build on the unchanged tree with the same identity returns the
same result as the first and leaves a list with the same elements as the list
after the first build (the second build appends the same paths once more). -/
theorem second_build_same_elements (root : Entry) (maintainerEmail userName : Str)
    (paths : List Str) :
    (build root maintainerEmail userName
        (build root maintainerEmail userName paths).2).1
      = (build root maintainerEmail userName paths).1 ∧
    (build root maintainerEmail userName (build root maintainerEmail userName paths).2).2
      = (build root maintainerEmail userName paths).2 ++
          (build root maintainerEmail userName []).2 ∧
    ∀ p, p ∈ (build root maintainerEmail userName
        (build root maintainerEmail userName paths).2).2 ↔
      p ∈ (build root maintainerEmail userName paths).2 := by
  have h1 := walkAppends maintainerEmail userName root [] false paths
  have h2 := walkAppends maintainerEmail userName root [] false
    (build root maintainerEmail userName paths).2
  unfold build at h2 ⊢
  rw [h2, h1]
  refine ⟨rfl, rfl, ?_⟩
  intro p
  simp only [List.mem_append]
  constructor
  · rintro ((h | h) | h)
    · exact Or.inl h
    · exact Or.inr h
    · exact Or.inr h
  · rintro (h | h)
    · exact Or.inl (Or.inl h)
    · exact Or.inr h

/-! ## Who is listed: disabled lines and empty identifiers -/

theorem lineDeclares_iff (line x : Str) :
    lineDeclares line x = true ↔
      ∃ m, parseMaintainer line = some m ∧
        ((m.Email ≠ [] ∧ m.Email = x) ∨ (m.Username ≠ [] ∧ m.Username = x)) := by
  unfold lineDeclares
  cases hp : parseMaintainer line with
  | none => simp
  | some m => simp

theorem lineDeclares_nil (line : Str) : lineDeclares line [] = false := by
  cases h : lineDeclares line [] with
  | false => rfl
  | true =>
    obtain ⟨m, -, h1 | h1⟩ := (lineDeclares_iff line []).1 h
    · exact absurd h1.2 h1.1
    · exact absurd h1.2 h1.1

theorem listsUser_iff (names : List Entry) (maintainerEmail userName : Str) :
    listsUser names maintainerEmail userName = true ↔
      ∃ e ∈ names, e.isDecl = true ∧ ∃ line ∈ e.scanLines,
        lineDeclares line maintainerEmail = true ∨ lineDeclares line userName = true := by
  simp only [listsUser, List.any_eq_true, Bool.and_eq_true, Bool.or_eq_true]

theorem declsOk_lines {names : List Entry} (hok : declsOk names = true) {e : Entry}
    (he : e ∈ names) (hd : e.isDecl = true) : ∀ line ∈ e.scanLines, wellFormedLine line = true := by
  simp only [declsOk, List.all_eq_true, Bool.or_eq_true, Bool.not_eq_true'] at hok
  rcases hok e he with h | h
  · rw [hd] at h; exact Bool.noConfusion h
  · exact h

/-- C16: in a directory whose declaration files are well-formed,
`getMaintainerManagersIds` returns a list that holds the non-empty email and the
non-empty handle of every line, disabled or not; and a user whose email or handle
stands on a disabled line (`Active = false`) is determined to be an owner of the
directory, which is then recorded whatever flag it inherits. -/
theorem disabled_line_still_owner (names : List Entry) (maintainerEmail userName : Str)
    (hok : declsOk names = true) :
    (∀ e ∈ names, e.isDecl = true →
      ∃ ids, getMaintainerManagersIds e.scanLines = .ok ids ∧
        ∀ line ∈ e.scanLines, ∀ m, parseMaintainer line = some m →
          (m.Email ≠ [] → m.Email ∈ ids) ∧ (m.Username ≠ [] → m.Username ∈ ids)) ∧
    ((∃ e ∈ names, e.isDecl = true ∧ ∃ line ∈ e.scanLines, ∃ m,
        parseMaintainer line = some m ∧ m.Active = false ∧
        ((m.Email ≠ [] ∧ (m.Email = maintainerEmail ∨ m.Email = userName)) ∨
          (m.Username ≠ [] ∧ (m.Username = maintainerEmail ∨ m.Username = userName)))) →
      scanNames maintainerEmail userName names (false, false) = .ok (true, true) ∧
        ∀ b, ownedHere names maintainerEmail userName b = true) := by
  constructor
  · intro e he hd
    obtain ⟨ids, hids, -, hmem⟩ := getMaintainerManagersIds_ok e.scanLines (declsOk_lines hok he hd)
    refine ⟨ids, hids, ?_⟩
    intro line hl m hm
    constructor
    · intro hne
      exact (hmem _).2 ⟨line, hl, (lineDeclares_iff line _).2 ⟨m, hm, Or.inl ⟨hne, rfl⟩⟩⟩
    · intro hne
      exact (hmem _).2 ⟨line, hl, (lineDeclares_iff line _).2 ⟨m, hm, Or.inr ⟨hne, rfl⟩⟩⟩
  · rintro ⟨e, he, hd, line, hl, m, hm, -, hdecl⟩
    have hlist : listsUser names maintainerEmail userName = true := by
      rw [listsUser_iff]
      refine ⟨e, he, hd, line, hl, ?_⟩
      rcases hdecl with ⟨hne, h | h⟩ | ⟨hne, h | h⟩
      · exact Or.inl ((lineDeclares_iff line _).2 ⟨m, hm, Or.inl ⟨hne, h⟩⟩)
      · exact Or.inr ((lineDeclares_iff line _).2 ⟨m, hm, Or.inl ⟨hne, h⟩⟩)
      · exact Or.inl ((lineDeclares_iff line _).2 ⟨m, hm, Or.inr ⟨hne, h⟩⟩)
      · exact Or.inr ((lineDeclares_iff line _).2 ⟨m, hm, Or.inr ⟨hne, h⟩⟩)
    have hhas : hasDeclFile names = true := by
      simp only [hasDeclFile, List.any_eq_true]
      exact ⟨e, he, hd⟩
    refine ⟨?_, fun b => ?_⟩
    · rw [scanNames_ok maintainerEmail userName names false false hok, hhas, hlist]
      rfl
    · simp [ownedHere, hlist]

/-- Witness of `disabled_line_still_owner`: alice stands only on the disabled line
`#Alice <alice@example.com> (@alice)` and is determined to be an owner. -/
theorem disabled_line_still_owner_witness :
    parseMaintainer disabledLine = some aliceDisabled ∧
      scanNames "alice@example.com".toList "alice".toList disabledEntries (false, false)
        = .ok (true, true) :=
  ⟨by decide,
   ((disabled_line_still_owner disabledEntries "alice@example.com".toList "alice".toList
      (by decide)).2
      ⟨.file "MAINTAINERS".toList [disabledLine], List.mem_singleton.2 rfl, by decide,
        disabledLine, List.mem_singleton.2 rfl, aliceDisabled, by decide, rfl,
        Or.inl ⟨by decide, Or.inl rfl⟩⟩).1⟩

/-- C17: in a well-formed tree, for a directory reached through visible names
that has a declaration file: the identifier list of each of its declaration
files is sorted and holds no empty string; the build for the identity with empty
email and empty handle does not record the directory; and when one of the two is
empty the directory is recorded exactly when some line declares the other one. -/
theorem empty_identity_never_owner (root : Entry) (ns : List Str) (sub : List Entry)
    (maintainerEmail userName : Str)
    (hwf : root.wellFormed = true) (hdir : root.isDir = true)
    (hreach : reach root.entries ns = some sub) (hdecl : hasDeclFile sub = true) :
    (∀ e ∈ sub, e.isDecl = true →
      ∃ ids, getMaintainerManagersIds e.scanLines = .ok ids ∧ ids.Sorted (· ≤ ·) ∧
        [] ∉ ids ∧ foundSorted ids [] = false) ∧
    relPath ns ∉ (build root [] [] []).2 ∧
    (relPath ns ∈ (build root maintainerEmail [] []).2 ↔
      ∃ e ∈ sub, e.isDecl = true ∧ ∃ line ∈ e.scanLines,
        lineDeclares line maintainerEmail = true) ∧
    (relPath ns ∈ (build root [] userName []).2 ↔
      ∃ e ∈ sub, e.isDecl = true ∧ ∃ line ∈ e.scanLines,
        lineDeclares line userName = true) := by
  have hok := (reach_good ns root.entries sub (Entry.wellFormed_dirOk hwf hdir) hreach).2
  have hrec : ∀ em us, relPath ns ∈ (build root em us []).2 ↔ listsUser sub em us = true := by
    intro em us
    unfold build
    rw [(recorded_iff_ownedAt root ns sub em us false hwf hdir hreach).2,
      ownedAt_declared em us ns _ sub false hreach hdecl]
  refine ⟨?_, ?_, ?_, ?_⟩
  · intro e he hd
    obtain ⟨ids, hids, hsorted, hmem⟩ :=
      getMaintainerManagersIds_ok e.scanLines (declsOk_lines hok.1 he hd)
    have hnil : [] ∉ ids := by
      intro h
      obtain ⟨line, -, hl⟩ := (hmem []).1 h
      rw [lineDeclares_nil] at hl
      exact Bool.noConfusion hl
    refine ⟨ids, hids, hsorted, hnil, ?_⟩
    cases hf : foundSorted ids [] with
    | false => rfl
    | true => exact absurd ((foundSorted_iff ids hsorted []).1 hf) hnil
  · rw [hrec, listsUser_iff]
    rintro ⟨e, -, -, line, -, h | h⟩ <;>
    · rw [lineDeclares_nil] at h
      exact Bool.noConfusion h
  · rw [hrec, listsUser_iff]
    constructor
    · rintro ⟨e, he, hd, line, hl, h | h⟩
      · exact ⟨e, he, hd, line, hl, h⟩
      · rw [lineDeclares_nil] at h
        exact Bool.noConfusion h
    · rintro ⟨e, he, hd, line, hl, h⟩
      exact ⟨e, he, hd, line, hl, Or.inl h⟩
  · rw [hrec, listsUser_iff]
    constructor
    · rintro ⟨e, he, hd, line, hl, h | h⟩
      · rw [lineDeclares_nil] at h
        exact Bool.noConfusion h
      · exact ⟨e, he, hd, line, hl, h⟩
    · rintro ⟨e, he, hd, line, hl, h⟩
      exact ⟨e, he, hd, line, hl, Or.inr h⟩

/-- Witness of `empty_identity_never_owner`: in the tree with the one line
`Alice <alice@example.com>` at the root, the build for the empty identity does
not record the root. -/
theorem empty_identity_never_owner_witness :
    relPath [] ∉ (build treeNoHandle [] [] []).2 :=
  (empty_identity_never_owner treeNoHandle [] treeNoHandle.entries [] []
    (by decide) rfl rfl (by decide)).2.1

/-- C12 (amended): on the tree `root/{a/MAINTAINERS(alice), a/x/, b/MAINTAINERS(bob)}`,
from an empty accumulator, the build for alice yields `.`, `a`, `a/x` (not `b`),
the build for bob yields `.`, `b` (not `a`, `a/x`), and the build for carol yields
only `.`; with one more sibling `c/y/` without declaration file, the build for
carol yields `.`, `c`, `c/y` and still none of `a`, `a/x`, `b`. -/
theorem spec_tree_ownership :
    build treeSpec "alice@example.com".toList "alice".toList []
        = (.ok (), [".".toList, "a".toList, "a/x".toList]) ∧
      build treeSpec "bob@example.com".toList "bob".toList []
        = (.ok (), [".".toList, "b".toList]) ∧
      build treeSpec carolEmail carolName [] = (.ok (), [".".toList]) ∧
      build treeSpecSibling carolEmail carolName []
        = (.ok (), [".".toList, "c".toList, "c/y".toList]) := by
  decide

/-- C12, counterexample: the set built for alice is not `{a, a/x}` and the set
built for bob is not `{b}`: both hold the root `.`, which has no declaration file. -/
theorem spec_tree_root_recorded :
    ".".toList ∈ (build treeSpec "alice@example.com".toList "alice".toList []).2 ∧
      ".".toList ∉ ["a".toList, "a/x".toList] ∧
      ".".toList ∈ (build treeSpec "bob@example.com".toList "bob".toList []).2 ∧
      ".".toList ∉ ["b".toList] := by
  decide

/-! ## The marker `#` in front of a line -/

theorem CapsAgree.set {c c' : Caps} (h : CapsAgree c c') (i : Nat) (v : Str) :
    CapsAgree (c.set i v) (c'.set i v) := by
  refine ⟨by simp [h.1], fun j hj => ?_⟩
  by_cases hij : i = j
  · subst hij
    by_cases hl : i < c.length
    · have hl' : i < c'.length := h.1 ▸ hl
      simp [List.getD_eq_getElem?_getD, List.getElem?_set, hl, hl']
    · have hl' : ¬ i < c'.length := h.1 ▸ hl
      simp [List.getD_eq_getElem?_getD, List.getElem?_set, hl, hl']
  · rw [getD_set_ne _ _ _ _ hij, getD_set_ne _ _ _ _ hij]
    exact h.2 j hj

theorem starGreedy_agree (p : Char → Bool) (k k' : Str → Option Caps)
    (hk : ∀ s, OptAgree (k s) (k' s)) :
    ∀ s, OptAgree (starGreedy p k s) (starGreedy p k' s) := by
  intro s
  induction s with
  | nil => exact hk []
  | cons x xs ih =>
    rw [starGreedy, starGreedy]
    by_cases hp : p x = true
    · rw [if_pos hp, if_pos hp]
      cases h1 : starGreedy p k xs with
      | none =>
        cases h2 : starGreedy p k' xs with
        | none => exact hk (x :: xs)
        | some r' => rw [h1, h2] at ih; exact ih.elim
      | some r =>
        cases h2 : starGreedy p k' xs with
        | none => rw [h1, h2] at ih; exact ih.elim
        | some r' => rw [h1, h2] at ih; exact ih
    · rw [if_neg hp, if_neg hp]
      exact hk (x :: xs)

/-- The matcher treats agreeing submatch lists alike. -/
theorem Re.run_agree (r : Re) :
    ∀ (s : Str) (c c' : Caps) (k k' : Str → Caps → Option Caps),
      (∀ s c c', CapsAgree c c' → OptAgree (k s c) (k' s c')) → CapsAgree c c' →
      OptAgree (r.run s c k) (r.run s c' k') := by
  induction r with
  | eps => intro s c c' k k' hk hc; exact hk s c c' hc
  | cls p =>
    intro s c c' k k' hk hc
    cases s with
    | nil => exact True.intro
    | cons x xs =>
      by_cases hp : p x = true
      · simp only [Re.run, if_pos hp]; exact hk xs c c' hc
      · simp only [Re.run, if_neg hp]; exact True.intro
  | star p =>
    intro s c c' k k' hk hc
    exact starGreedy_agree p _ _ (fun s' => hk s' c c' hc) s
  | seq a b iha ihb =>
    intro s c c' k k' hk hc
    exact iha s c c' _ _ (fun s1 c1 c1' h1 => ihb s1 c1 c1' k k' hk h1) hc
  | alt a b iha ihb =>
    intro s c c' k k' hk hc
    have ha := iha s c c' k k' hk hc
    have hb := ihb s c c' k k' hk hc
    simp only [Re.run]
    cases h1 : a.run s c k with
    | none =>
      cases h2 : a.run s c' k' with
      | none => exact hb
      | some r' => rw [h1, h2] at ha; exact ha.elim
    | some r =>
      cases h2 : a.run s c' k' with
      | none => rw [h1, h2] at ha; exact ha.elim
      | some r' => rw [h1, h2] at ha; exact ha
  | grp i r ih =>
    intro s c c' k k' hk hc
    exact ih s c c' _ _ (fun s1 c1 c1' h1 => hk s1 _ _ (h1.set i _)) hc

theorem maintainerRe_eq :
    maintainerRe = .seq (.star isBlank) (.seq reMarker reAfterMarker) := rfl

theorem run_marker_absent (x : Char) (xs : Str) (c : Caps) (k : Str → Caps → Option Caps)
    (hx : x ≠ '#') : reMarker.run (x :: xs) c k = k (x :: xs) (c.set 1 []) := by
  unfold reMarker
  rw [run_grp]
  have hb : (x == '#') = false := by simpa using hx
  simp [Re.run, Re.lit, hb]

theorem run_marker_present (L : Str) (c : Caps) (k : Str → Caps → Option Caps) (r : Caps)
    (h : k L (c.set 1 ['#']) = some r) : reMarker.run ('#' :: L) c k = some r := by
  unfold reMarker
  rw [run_grp]
  apply run_alt_some
  rw [run_lit_cons]
  simpa using h

theorem atEnd_agree (s : Str) (c c' : Caps) (h : CapsAgree c c') :
    OptAgree ((fun (s : Str) (c : Caps) => if s = [] then some c else none) s c)
      ((fun (s : Str) (c : Caps) => if s = [] then some c else none) s c') := by
  by_cases hs : s = []
  · simp only [hs, if_true]; exact h
  · simp only [hs, if_false]; exact True.intro

/-- The whole match on a line that starts with neither blank nor marker, and on
the same line with the marker in front: both succeed, with submatches that agree
from group 2 on, group 1 being empty in the first and `#` in the second. -/
theorem marker_submatches (x : Char) (xs : Str) (caps : Caps)
    (h1 : x ≠ '#') (h2 : isBlank x = false)
    (h : findStringSubmatch maintainerRe (x :: xs) = some caps) :
    caps.getD 1 [] = [] ∧
      ∃ caps', findStringSubmatch maintainerRe ('#' :: x :: xs) = some caps' ∧
        caps'.getD 1 [] = ['#'] ∧ CapsAgree caps caps' := by
  unfold findStringSubmatch at h ⊢
  rw [maintainerRe_eq, run_seq, run_star, starGreedy_stop _ _ x xs h2, run_seq,
    run_marker_absent x xs _ _ h1] at h
  have hagree := Re.run_agree reAfterMarker (x :: xs)
    (((x :: xs) :: List.replicate 7 []).set 1 [])
    ((('#' :: x :: xs) :: List.replicate 7 []).set 1 ['#'])
    _ _ atEnd_agree
    ⟨by simp, fun j hj => by
      cases j with
      | zero => omega
      | succ j =>
        cases j with
        | zero => omega
        | succ j => simp [List.getD_eq_getElem?_getD]⟩
  rw [h] at hagree
  cases h' : reAfterMarker.run (x :: xs)
      ((('#' :: x :: xs) :: List.replicate 7 []).set 1 ['#'])
      (fun s c => if s = [] then some c else none) with
  | none => rw [h'] at hagree; exact hagree.elim
  | some caps' =>
    rw [h'] at hagree
    obtain ⟨s1, c1, hm1, hk1⟩ := Re.run_sound _ _ _ _ _ h
    obtain ⟨s2, c2, hm2, hk2⟩ := Re.run_sound _ _ _ _ _ h'
    have e1 : c1 = caps := by
      by_cases hs : s1 = []
      · simpa [hs] using hk1
      · simp [hs] at hk1
    have e2 : c2 = caps' := by
      by_cases hs : s2 = []
      · simpa [hs] using hk2
      · simp [hs] at hk2
    have f1 := Re.Matches.frame _ _ _ _ _ hm1 1 (by decide)
    have f2 := Re.Matches.frame _ _ _ _ _ hm2 1 (by decide)
    rw [e1] at f1
    rw [e2] at f2
    refine ⟨by rw [f1]; simp [List.getD_eq_getElem?_getD], caps', ?_, ?_, hagree⟩
    · rw [maintainerRe_eq, run_seq, run_star, starGreedy_stop _ _ '#' _ (by decide), run_seq]
      exact run_marker_present _ _ _ _ h'
    · rw [f2]; simp [List.getD_eq_getElem?_getD]

/-- C11 (amended): for every line accepted by `parseMaintainer` that starts
neither with the marker `#` nor with a space or a tab, the record of the line has
`Active = true`, the line with `#` in front is accepted too, its record has
`Active = false`, and the two records have equal `Username`, `Email`, `FullName`
and `Target`. -/
theorem marker_toggles_active (L : Str) (m : Maintainer)
    (h : parseMaintainer L = some m)
    (h1 : L.head? ≠ some '#') (h2 : L.head? ≠ some ' ') (h3 : L.head? ≠ some '\t') :
    m.Active = true ∧
      ∃ m', parseMaintainer ('#' :: L) = some m' ∧ m'.Active = false ∧
        m'.Username = m.Username ∧ m'.Email = m.Email ∧ m'.FullName = m.FullName ∧
        m'.Target = m.Target := by
  cases L with
  | nil =>
    have hnone : parseMaintainer [] = none := by decide
    rw [hnone] at h
    exact Option.noConfusion h
  | cons x xs =>
    have hx1 : x ≠ '#' := fun e => h1 (by rw [e]; rfl)
    have hx2 : isBlank x = false := by
      have a : x ≠ ' ' := fun e => h2 (by rw [e]; rfl)
      have b : x ≠ '\t' := fun e => h3 (by rw [e]; rfl)
      simp [isBlank, a, b]
    unfold parseMaintainer at h ⊢
    cases hf : findStringSubmatch maintainerRe (x :: xs) with
    | none => rw [hf] at h; exact Option.noConfusion h
    | some caps =>
      rw [hf] at h
      have hm := Option.some.inj h
      obtain ⟨g1, caps', hf', g1', hag⟩ := marker_submatches x xs caps hx1 hx2 hf
      rw [hf']
      subst hm
      refine ⟨?_, _, rfl, ?_, ?_, ?_, ?_, ?_⟩
      · show (caps.getD 1 [] == []) = true
        rw [g1]; rfl
      · show (caps'.getD 1 [] == []) = false
        rw [g1']; rfl
      · show trim isBlank (caps'.getD 7 []) = trim isBlank (caps.getD 7 [])
        rw [hag.2 7 (by omega)]
      · show trim isBlank (caps'.getD 5 []) = trim isBlank (caps.getD 5 [])
        rw [hag.2 5 (by omega)]
      · show trim isBlank (caps'.getD 4 []) = trim isBlank (caps.getD 4 [])
        rw [hag.2 4 (by omega)]
      · show pathBase (pathClean (caps'.getD 3 [])) = pathBase (pathClean (caps.getD 3 []))
        rw [hag.2 3 (by omega)]

/-- Witness of `marker_toggles_active` on the line `core: Alice <alice@example.com> (@alice)`. -/
theorem marker_toggles_active_witness :
    (parseMaintainer "core: Alice <alice@example.com> (@alice)".toList).map (·.Active)
        = some true ∧
      (parseMaintainer "#core: Alice <alice@example.com> (@alice)".toList).map
          (fun m => (m.Active, m.Target, m.Email))
        = some (false, "core".toList, "alice@example.com".toList) := by
  cases hm : parseMaintainer "core: Alice <alice@example.com> (@alice)".toList with
  | none =>
    have hsome : (parseMaintainer "core: Alice <alice@example.com> (@alice)".toList).isSome
        = true := by decide
    rw [hm] at hsome
    exact Bool.noConfusion hsome
  | some m =>
    obtain ⟨ha, m', hm', ha', -, he, -, ht⟩ := marker_toggles_active _ m hm
      (by decide) (by decide) (by decide)
    have hm'' : parseMaintainer "#core: Alice <alice@example.com> (@alice)".toList = some m' :=
      hm'
    refine ⟨by rw [Option.map_some', ha], ?_⟩
    rw [hm'', Option.map_some', ha', ht, he]
    have hT : (parseMaintainer "core: Alice <alice@example.com> (@alice)".toList).map
        (fun m => (m.Target, m.Email)) = some ("core".toList, "alice@example.com".toList) := by
      decide
    rw [hm, Option.map_some'] at hT
    have hT' := Option.some.inj hT
    rw [(Prod.mk.inj hT').1, (Prod.mk.inj hT').2]

/-- C11, counterexample: the accepted line ` x: Bob <b@x>` (one leading space)
does not start with `#`; its record has target `x` and name `Bob`, but with `#`
in front the record has target `.` and name `x: Bob`.  The accepted line
` #Bob <b@x>` does not start with `#` either and has `Active = false`, and with
`#` in front it is rejected; so is the accepted line with a leading tab. -/
theorem marker_after_blank :
    (parseMaintainer " x: Bob <b@x>".toList).map (fun m => (m.Active, m.Target, m.FullName))
        = some (true, "x".toList, "Bob".toList) ∧
      (parseMaintainer "# x: Bob <b@x>".toList).map (fun m => (m.Active, m.Target, m.FullName))
        = some (false, ".".toList, "x: Bob".toList) ∧
      (parseMaintainer " #Bob <b@x>".toList).map (·.Active) = some false ∧
      parseMaintainer "# #Bob <b@x>".toList = none ∧
      (parseMaintainer "\tBob <b@x>".toList).isSome = true ∧
      parseMaintainer "#\tBob <b@x>".toList = none := by
  decide

/-! ## `filepath.Dir` and the directory loop of `ReviewPatch` -/

theorem splitSlash_ne_nil (p : Str) : splitSlash p ≠ [] :=
  List.splitOnP_ne_nil _ p

theorem splitSlash_dropLast_append (p : Str) :
    splitSlash p = (splitSlash p).dropLast ++ [lastSegment p] := by
  have hne := splitSlash_ne_nil p
  have h := (List.dropLast_append_getLast hne).symm
  have hl : lastSegment p = (splitSlash p).getLast hne := by
    simp [lastSegment, List.getLast?_eq_getLast _ hne]
  rw [hl]
  exact h

theorem cleanStep_normal (st : List Str) (seg : Str) (h1 : seg ≠ []) (h2 : seg ≠ ['.'])
    (h3 : seg ≠ ['.', '.']) : cleanStep false st seg = st ++ [seg] := by
  simp [cleanStep, h1, h2, h3]

theorem cleanStep_empty (st : List Str) : cleanStep false st [] = st := by
  simp [cleanStep]

/-- The cleaned form of a relative path whose last segment is an ordinary name. -/
theorem pathClean_with_last (p : Str) (hrel : p.head? ≠ some '/')
    (h1 : lastSegment p ≠ []) (h2 : lastSegment p ≠ ['.']) (h3 : lastSegment p ≠ ['.', '.']) :
    CleanSegs ((splitSlash p).dropLast.foldl (cleanStep false) [] ++ [lastSegment p]) ∧
    pathClean p = List.intercalate ['/']
      ((splitSlash p).dropLast.foldl (cleanStep false) [] ++ [lastSegment p]) := by
  have hsplit := splitSlash_dropLast_append p
  have hns := splitSlash_no_slash p
  have hsegs : ∀ l ∈ (splitSlash p).dropLast, '/' ∉ l :=
    fun l hl => hns l (List.mem_of_mem_dropLast hl)
  have hlast : '/' ∉ lastSegment p := hns _ (by rw [hsplit]; simp)
  have hst := foldl_cleanStep_clean _ hsegs [] CleanSegs.nil
  have hcl := hst.snoc_normal h1 h2 h3 hlast
  refine ⟨hcl, ?_⟩
  have hp : p ≠ [] := by
    intro hp
    rw [hp] at h1
    exact h1 (by decide)
  have hfold : (splitSlash p).foldl (cleanStep false) []
      = (splitSlash p).dropLast.foldl (cleanStep false) [] ++ [lastSegment p] := by
    conv_lhs => rw [hsplit]
    rw [List.foldl_append, List.foldl_cons, List.foldl_nil, cleanStep_normal _ _ h1 h2 h3]
  unfold pathClean
  simp only [if_neg hp, hrel, decide_False, Bool.false_eq_true, if_false]
  rw [hfold, if_neg (hcl.intercalate_ne_nil (by simp))]

/-- C13 (amended): for every path that is not rooted and whose last segment is
an ordinary name (not empty, not `.`, not `..`), `filepath.Dir` of the path
equals the directory that the loop of `ReviewPatch` computes from the cleaned
path. -/
theorem pathDir_eq_targetDirOf (p : Str) (hrel : p.head? ≠ some '/')
    (h1 : lastSegment p ≠ []) (h2 : lastSegment p ≠ ['.']) (h3 : lastSegment p ≠ ['.', '.']) :
    pathDir p = targetDirOf (pathClean p) := by
  obtain ⟨hcl, hclean⟩ := pathClean_with_last p hrel h1 h2 h3
  have hsplit := splitSlash_dropLast_append p
  have hns := splitSlash_no_slash p
  have hsegs : ∀ l ∈ (splitSlash p).dropLast, '/' ∉ l :=
    fun l hl => hns l (List.mem_of_mem_dropLast hl)
  have hst := foldl_cleanStep_clean _ hsegs [] CleanSegs.nil
  -- the right-hand side
  have hrhs : targetDirOf (pathClean p)
      = if (splitSlash p).dropLast.foldl (cleanStep false) [] = [] then ['.']
        else List.intercalate ['/'] ((splitSlash p).dropLast.foldl (cleanStep false) []) := by
    rw [hclean]
    unfold targetDirOf
    rw [show splitSlash (List.intercalate ['/']
        ((splitSlash p).dropLast.foldl (cleanStep false) [] ++ [lastSegment p]))
        = (splitSlash p).dropLast.foldl (cleanStep false) [] ++ [lastSegment p] from
      List.splitOn_intercalate _ '/' hcl.no_slash (by simp)]
    rw [List.dropLast_concat, targetDir_fold _ hst]
  rw [hrhs]
  -- the left-hand side
  unfold pathDir
  by_cases hd : (splitSlash p).dropLast = []
  · have hlen : ¬ (splitSlash p).length > 1 := by
      rw [hsplit, hd]; simp
    rw [if_neg hlen, hd]
    simp [List.intercalate, pathClean]
  · have hlen : (splitSlash p).length > 1 := by
      rw [hsplit]
      have : 0 < (splitSlash p).dropLast.length := List.length_pos.2 hd
      simp only [List.length_append, List.length_singleton]
      omega
    rw [if_pos hlen]
    have hq : List.intercalate ['/'] (splitSlash p).dropLast ++ ['/']
        = List.intercalate ['/'] ((splitSlash p).dropLast ++ [[]]) := by
      rw [intercalate_snoc _ _ _ hd]; simp
    have hpeq : p = List.intercalate ['/'] (splitSlash p).dropLast ++ ['/'] ++ lastSegment p := by
      have := List.intercalate_splitOn p '/'
      have e : List.intercalate ['/'] (splitSlash p) = p := this
      rw [hsplit, intercalate_snoc _ _ _ hd] at e
      simpa using e.symm
    have hqsplit : splitSlash (List.intercalate ['/'] ((splitSlash p).dropLast ++ [[]]))
        = (splitSlash p).dropLast ++ [[]] := by
      apply List.splitOn_intercalate _ '/' _ (by simp)
      intro l hl
      rcases List.mem_append.1 hl with hl | hl
      · exact hsegs l hl
      · rw [List.mem_singleton.1 hl]; simp
    -- the head of `p` is the head of the directory part
    cases hi : List.intercalate ['/'] (splitSlash p).dropLast with
    | nil =>
      exfalso
      rw [hi] at hpeq
      apply hrel
      rw [hpeq]; rfl
    | cons c rest =>
      have hc : c ≠ '/' := by
        intro e
        apply hrel
        rw [hpeq, hi, e]; rfl
      rw [← hi, hq]
      unfold pathClean
      rw [hqsplit, ← hq, hi]
      simp only [List.cons_append, reduceCtorEq, if_false, List.head?_cons, Option.some.injEq, hc,
        decide_False, Bool.false_eq_true, List.foldl_append, List.foldl_cons, List.foldl_nil,
        cleanStep_empty]
      by_cases hst0 : (splitSlash p).dropLast.foldl (cleanStep false) [] = []
      · rw [hst0]; simp [List.intercalate]
      · rw [if_neg hst0, if_neg (hst.intercalate_ne_nil hst0)]

/-- Witness of `pathDir_eq_targetDirOf` on the path `a/b/../c/z.go`. -/
theorem pathDir_eq_targetDirOf_witness :
    pathDir "a/b/../c/z.go".toList = targetDirOf (pathClean "a/b/../c/z.go".toList) ∧
      pathDir "a/b/../c/z.go".toList = "a/c".toList :=
  ⟨pathDir_eq_targetDirOf "a/b/../c/z.go".toList (by decide) (by decide) (by decide)
    (by decide), by decide⟩

/-- C13, counterexample: for the rooted path `/a/b.go`, `filepath.Dir` is `/a`
and the loop of `ReviewPatch` gives `a`; for `a/b/`, whose last segment is
empty, they are `a/b` and `a`. -/
theorem pathDir_differs :
    pathDir "/a/b.go".toList = "/a".toList ∧
      targetDirOf (pathClean "/a/b.go".toList) = "a".toList ∧
      pathDir "/a/b.go".toList ≠ targetDirOf (pathClean "/a/b.go".toList) ∧
      pathDir "a/b/".toList = "a/b".toList ∧
      targetDirOf (pathClean "a/b/".toList) = "a".toList := by
  decide

/-! ## A sub-directory named `MAINTAINERS` -/

/-- C2, evaluated: the tree `root/{maintainers/, src/}` is well-formed and holds
no declaration file at all (it holds no file), so the root and `src` have no
declaration file and no ancestor with one; yet the build records neither `.` nor
`src` and returns no error: the first loop takes the sub-directory `maintainers`
for a declaration file with no lines. -/
theorem directory_named_maintainers_not_recorded :
    treeDirNamedMaintainers.wellFormed = true ∧
      hasDeclarationFile treeDirNamedMaintainers.entries = false ∧
      (reach treeDirNamedMaintainers.entries ["src".toList]).isSome = true ∧
      (nearestDeclarationFile treeDirNamedMaintainers.entries ["src".toList]).isNone = true ∧
      build treeDirNamedMaintainers carolEmail carolName [] = (.ok (), []) ∧
      relPath [] ∉ (build treeDirNamedMaintainers carolEmail carolName []).2 ∧
      relPath ["src".toList] ∉ (build treeDirNamedMaintainers carolEmail carolName []).2 := by
  decide

theorem hasDeclFile_eq_proper (es : List Entry) (h : noDeclDirs es = true) :
    hasDeclFile es = hasDeclarationFile es := by
  induction es with
  | nil => rfl
  | cons e es ih =>
    cases e with
    | file n ls =>
      have h' : noDeclDirs es = true := by simpa [noDeclDirs, Entry.noDeclDir] using h
      have := ih h'
      simp only [hasDeclFile, hasDeclarationFile] at this
      simp [hasDeclFile, hasDeclarationFile, Entry.isDeclFile, Entry.isDir, this]
    | dir n l sub =>
      have h' : (equalFold n MaintainerManagersFileName = false ∧ noDeclDirs sub = true) ∧
          noDeclDirs es = true := by
        simpa [noDeclDirs, Entry.noDeclDir] using h
      have := ih h'.2
      simp only [hasDeclFile, hasDeclarationFile] at this
      simp [hasDeclFile, hasDeclarationFile, Entry.isDeclFile, Entry.isDir, Entry.isDecl,
        Entry.name, h'.1.1, this]

theorem noDeclDirs_lookup (es : List Entry) (n : Str) (sub : List Entry)
    (h : noDeclDirs es = true) (hl : lookupDir es n = some sub) : noDeclDirs sub = true := by
  induction es with
  | nil => simp [lookupDir] at hl
  | cons e es ih =>
    cases e with
    | file m ls =>
      exact ih (by simpa [noDeclDirs, Entry.noDeclDir] using h) (by simpa [lookupDir] using hl)
    | dir m l sub' =>
      have h' : (equalFold m MaintainerManagersFileName = false ∧ noDeclDirs sub' = true) ∧
          noDeclDirs es = true := by
        simpa [noDeclDirs, Entry.noDeclDir] using h
      by_cases hm : m = n
      · rw [lookupDir, if_pos hm] at hl
        rw [← Option.some.inj hl]
        exact h'.1.2
      · rw [lookupDir, if_neg hm] at hl
        exact ih h'.2 hl

theorem nearestDecl_eq_proper (ns : List Str) :
    ∀ es : List Entry, noDeclDirs es = true →
      nearestDecl es ns = nearestDeclarationFile es ns := by
  induction ns with
  | nil => intro es _; rfl
  | cons n ns ih =>
    intro es h
    rw [nearestDecl, nearestDeclarationFile]
    cases hl : lookupDir es n with
    | none => rfl
    | some sub =>
      simp only []
      rw [ih sub (noDeclDirs_lookup es n sub h hl), hasDeclFile_eq_proper es h]

theorem reach_noDeclDirs (ns : List Str) :
    ∀ (es sub : List Entry), noDeclDirs es = true → reach es ns = some sub →
      noDeclDirs sub = true := by
  induction ns with
  | nil =>
    intro es sub h hr
    have : es = sub := by simpa [reach] using hr
    rw [← this]; exact h
  | cons n ns ih =>
    intro es sub h hr
    rw [reach] at hr
    by_cases hn : hidden n = true
    · rw [if_pos hn] at hr; exact Option.noConfusion hr
    · rw [if_neg hn] at hr
      cases hl : lookupDir es n with
      | none => rw [hl] at hr; exact Option.noConfusion hr
      | some s1 =>
        rw [hl] at hr
        exact ih s1 sub (noDeclDirs_lookup es n s1 h hl) hr

/-- What holds of C2 apart from sub-directories named `MAINTAINERS`: in a
well-formed tree in which no sub-directory has that name, a directory without
declaration file, reached from the root through visible names, is recorded by
the build if and only if no ancestor has a declaration file or the nearest
ancestor that has one lists the acting user; the root without declaration file
is always recorded, and a directory without one exactly when its parent is. -/
theorem undeclared_directory_recorded_iff_proper (root : Entry) (ns : List Str)
    (sub : List Entry) (maintainerEmail userName : Str)
    (hwf : root.wellFormed = true) (hdir : root.isDir = true)
    (hnod : noDeclDirs root.entries = true)
    (hreach : reach root.entries ns = some sub) (hno : hasDeclarationFile sub = false) :
    (build root maintainerEmail userName []).1 = .ok () ∧
    (relPath ns ∈ (build root maintainerEmail userName []).2 ↔
      match nearestDeclarationFile root.entries ns with
      | none => True
      | some anc => listsUser anc maintainerEmail userName = true) ∧
    (ns = [] → relPath ns ∈ (build root maintainerEmail userName []).2) ∧
    (∀ pre n, ns = pre ++ [n] →
      (relPath ns ∈ (build root maintainerEmail userName []).2 ↔
        relPath pre ∈ (build root maintainerEmail userName []).2)) := by
  have hsub := reach_noDeclDirs ns _ sub hnod hreach
  have hno' : hasDeclFile sub = false := by rw [hasDeclFile_eq_proper sub hsub]; exact hno
  have h := undeclared_directory_recorded_iff root ns sub maintainerEmail userName
    hwf hdir hreach hno'
  rw [nearestDecl_eq_proper ns _ hnod] at h
  exact h

/-- Witness of `undeclared_directory_recorded_iff_proper`: in the nested-override
tree, which has no sub-directory named `MAINTAINERS`, the directory `a/x` without
declaration file is recorded for alice, whom `a/MAINTAINERS` lists. -/
theorem undeclared_directory_recorded_iff_proper_witness :
    "a/x".toList ∈ (build treeNested "alice@example.com".toList "alice".toList []).2 :=
  ((undeclared_directory_recorded_iff_proper treeNested ["a".toList, "x".toList] []
    "alice@example.com".toList "alice".toList (by decide) rfl (by decide) rfl rfl).2.1).2
    (show listsUser aEntries "alice@example.com".toList "alice".toList = true by decide)

end Pulls
